import Mathlib

/-!
Verification of LEMON's `lemon/euler.h` (Euler tour iterators and the
Eulerian predicate) against its specification.

The embedding below models the two iterator classes of the header as
explicit state machines:

* `DiEulerIt` (directed): a digraph is a node count together with a list
  of arcs (source, target), an arc being identified by its index.  The
  state holds the per-node cursor map `nedge` (the not yet consumed
  suffix of each node's out-arc list) and the trail `euler`
  (`std::list<Arc>`).
* `EulerIt` (undirected): a graph is a node count together with a list of
  edges; an arc is an edge index paired with an orientation flag.  The
  state additionally holds the `visited` edge map.

Loops of the C++ code are modelled as fuel-indexed recursions where the
fuel is the obvious termination measure of the loop (the total number of
arcs still present in the cursor map); with that much fuel the fuel-out
branch is unreachable, which the lemmas below establish where needed.
-/

namespace LemonEuler

/-- A directed graph: nodes are `0 .. numNodes-1`, arcs are identified by
their index into `arcs`; an entry is the (source, target) pair. -/
structure Digraph where
  numNodes : Nat
  arcs : List (Nat × Nat)
deriving DecidableEq, Repr

/-- Source node of an arc (`g.source(a)` of the graph-access collaborator). -/
def Digraph.source (g : Digraph) (a : Nat) : Nat :=
  (g.arcs.getD a (0, 0)).1

/-- Target node of an arc (`g.target(a)` in the C++ code). -/
def Digraph.target (g : Digraph) (a : Nat) : Nat :=
  (g.arcs.getD a (0, 0)).2

/-- Out-arc enumeration of a node (`OutArcIt(g,n)` and its successors):
all arc indices whose source is `v`, in index order. -/
def outArcs (g : Digraph) (v : Nat) : List Nat :=
  (List.range g.arcs.length).filter (fun a => g.source a == v)

/-- Well-formed graph: every arc joins existing nodes. -/
def Digraph.wf (g : Digraph) : Prop :=
  ∀ p ∈ g.arcs, p.1 < g.numNodes ∧ p.2 < g.numNodes

instance (g : Digraph) : Decidable g.wf := by
  unfold Digraph.wf; infer_instance

/-- The state of a `DiEulerIt`: the cursor map `nedge` (index `v` holds the
suffix of `outArcs g v` not yet consumed through node `v`) and the trail
`euler` (the `std::list<Arc>` member). -/
structure DiState where
  nedge : List (List Nat)
  euler : List Nat
deriving DecidableEq, Repr

/-- Total number of arcs still held by the cursor map; the termination
measure of every walk loop. -/
def sumLens {α : Type} (ne : List (List α)) : Nat :=
  (ne.map List.length).sum

/-- One walk of the C++ while-loop
`while (nedge[start]!=INVALID) { euler.push_back(nedge[start]); next=g.target(nedge[start]); ++nedge[start]; start=next; }`
(used by the constructor, and — inserting before a fixed position, which
amounts to building this very list — by `operator++`).  Returns the walked
arcs in order together with the updated cursor map.  The fuel is an upper
bound on the number of iterations; each iteration consumes one arc from the
cursor map, so `sumLens ne` is always enough. -/
def diWalkF (g : Digraph) : Nat → List (List Nat) → Nat → List Nat × List (List Nat)
  | 0, ne, _ => ([], ne)
  | fuel + 1, ne, s =>
    match ne.getD s [] with
    | [] => ([], ne)
    | a :: rest =>
      let r := diWalkF g fuel (ne.set s rest) (g.target a)
      (a :: r.1, r.2)

/-- The walk loop with sufficient fuel. -/
def diWalk (g : Digraph) (ne : List (List Nat)) (s : Nat) : List Nat × List (List Nat) :=
  diWalkF g (sumLens ne) ne s

/-- The fully initialized cursor map of the constructor
(`for (NodeIt n(g); n!=INVALID; ++n) nedge[n]=OutArcIt(g,n);`). -/
def initNedge (g : Digraph) : List (List Nat) :=
  (List.range g.numNodes).map (outArcs g)

/-- The start-node scan of the constructor
(`NodeIt n(g); while (n!=INVALID && OutArcIt(g,n)==INVALID) ++n;`):
the first node, in enumeration order, that has an outgoing arc. -/
def firstOut (g : Digraph) : Option Nat :=
  (List.range g.numNodes).find? (fun v => !(outArcs g v).isEmpty)

/-- The `DiEulerIt` constructor.  `none` plays the role of `INVALID` for the
optional start argument.  The scan for a start node runs only when no start
was given; afterwards, if a start node is at hand, the cursor map is
initialized and the initial walk fills the trail. -/
def diInit (g : Digraph) (start : Option Nat) : DiState :=
  let s0 := match start with
    | some s => some s
    | none => firstOut g
  match s0 with
  | none => { nedge := (List.range g.numNodes).map (fun _ => []), euler := [] }
  | some s =>
    let r := diWalk g (initNedge g) s
    { nedge := r.2, euler := r.1 }

/-- `DiEulerIt::operator++`: pop the front arc of the trail, then walk from
its target, inserting every walked arc just before the (stable) old second
position of the trail — i.e. the walked circuit ends up in front of the
remaining trail. On an empty trail the C++ code has undefined behavior; this
total model returns the state unchanged there (see the guarded variant). -/
def diStep (g : Digraph) (st : DiState) : DiState :=
  match st.euler with
  | [] => st
  | e :: rest =>
    let r := diWalk g st.nedge (g.target e)
    { nedge := r.2, euler := r.1 ++ rest }

/-- Guarded advance: `none` exactly when the trail is empty (the case in
which the C++ `operator++` would pop the front of an empty `std::list`). -/
def diStepChecked (g : Digraph) (st : DiState) : Option DiState :=
  match st.euler with
  | [] => none
  | _ :: _ => some (diStep g st)

/-- `operator Arc()`: the front of the trail, or the sentinel (`none` models
`INVALID`) when the trail is empty. -/
def diArc (st : DiState) : Option Nat :=
  match st.euler with
  | [] => none
  | a :: _ => some a

/-- The arc conversion as a state transformer: the C++ member function reads
the trail and writes nothing. -/
def diArcRead (st : DiState) : Option Nat × DiState :=
  (diArc st, st)

/-- `operator!=(Invalid)`: the iteration-termination test. -/
def diHasMore (st : DiState) : Bool :=
  !st.euler.isEmpty

/-- `Arc operator++(int)`: remember the conversion value, advance, return
the remembered arc. -/
def diPostInc (g : Digraph) (st : DiState) : Option Nat × DiState :=
  (diArc st, diStep g st)

/-- The whole emitted sequence of the iterator: keep emitting the current
arc and advancing until the trail is empty.  Fuel-indexed; each emission
shrinks `euler.length + sumLens nedge` by one, so that measure is enough. -/
def diRunF (g : Digraph) : Nat → DiState → List Nat
  | 0, _ => []
  | fuel + 1, st =>
    match st.euler with
    | [] => []
    | e :: _ => e :: diRunF g fuel (diStep g st)

/-- The emitted sequence with sufficient fuel. -/
def diRun (g : Digraph) (st : DiState) : List Nat :=
  diRunF g (st.euler.length + sumLens st.nedge) st

/-- The full arc sequence produced by `DiEulerIt(gr, start)` iterated to the
sentinel. -/
def diTour (g : Digraph) (start : Option Nat) : List Nat :=
  diRun g (diInit g start)

/-- An undirected graph: nodes are `0 .. numNodes-1`, edges are identified
by their index into `edges`; an entry is the pair of endpoints.  Each edge
yields two arcs, one per orientation. -/
structure UGraph where
  numNodes : Nat
  edges : List (Nat × Nat)
deriving DecidableEq, Repr

/-- An arc of an undirected graph: the underlying edge index together with
the orientation flag (`true` = as stored, `false` = reversed). -/
abbrev UArc := Nat × Bool

/-- Source node of an arc of an undirected graph. -/
def UGraph.source (g : UGraph) (a : UArc) : Nat :=
  let p := g.edges.getD a.1 (0, 0)
  if a.2 then p.1 else p.2

/-- Target node of an arc of an undirected graph (`g.target(a)`). -/
def UGraph.target (g : UGraph) (a : UArc) : Nat :=
  let p := g.edges.getD a.1 (0, 0)
  if a.2 then p.2 else p.1

/-- Out-arc enumeration of a node of an undirected graph: for each edge in
index order, the orientations leaving `v` (a loop edge contributes both). -/
def uOutArcs (g : UGraph) (v : Nat) : List UArc :=
  (List.range g.edges.length).flatMap (fun e =>
    (if (g.edges.getD e (0, 0)).1 == v then [(e, true)] else []) ++
    (if (g.edges.getD e (0, 0)).2 == v then [(e, false)] else []))

/-- The state of an `EulerIt`: cursor map, visited-edge map (indexed by edge
id), and the trail. -/
structure UState where
  nedge : List (List UArc)
  visited : List Bool
  euler : List UArc
deriving DecidableEq, Repr

/-- The inner skip loop
`while(nedge[s]!=INVALID && visited[nedge[s]]) ++nedge[s];`
applied to one cursor list: drop arcs from the front while their underlying
edge is marked visited. -/
def skipVisited (vis : List Bool) : List UArc → List UArc
  | [] => []
  | a :: rest => if vis.getD a.1 false then skipVisited vis rest else a :: rest

/-- Run the skip loop on the cursor of node `s`. -/
def skipAt (vis : List Bool) (ne : List (List UArc)) (s : Nat) : List (List UArc) :=
  ne.set s (skipVisited vis (ne.getD s []))

/-- The walk loop of the `EulerIt` constructor:
take the arc at the cursor (the constructor checks no visited flag before
the very first selection — at that point nothing is visited), mark its edge
visited, advance the cursor, move to the target, skip the new node's cursor
past visited arcs, repeat while that cursor is valid. -/
def uWalkCF (g : UGraph) :
    Nat → List (List UArc) → List Bool → Nat → List UArc × List (List UArc) × List Bool
  | 0, ne, vis, _ => ([], ne, vis)
  | fuel + 1, ne, vis, s =>
    match ne.getD s [] with
    | [] => ([], ne, vis)
    | a :: rest =>
      let vis' := vis.set a.1 true
      let ne' := ne.set s rest
      let t := g.target a
      let ne'' := skipAt vis' ne' t
      let r := uWalkCF g fuel ne'' vis' t
      (a :: r.1, r.2.1, r.2.2)

/-- The walk loop of `EulerIt::operator++`: first skip the cursor of `s`
past visited arcs; if it is exhausted stop, otherwise select the arc, mark
it, advance the cursor, move to the target and repeat.  (The selected arcs
are inserted before the stable old second trail position, i.e. the walked
circuit ends up in front of the remaining trail.) -/
def uWalkSF (g : UGraph) :
    Nat → List (List UArc) → List Bool → Nat → List UArc × List (List UArc) × List Bool
  | 0, ne, vis, _ => ([], ne, vis)
  | fuel + 1, ne, vis, s =>
    let ne1 := skipAt vis ne s
    match ne1.getD s [] with
    | [] => ([], ne1, vis)
    | a :: rest =>
      let vis' := vis.set a.1 true
      let ne2 := ne1.set s rest
      let r := uWalkSF g fuel ne2 vis' (g.target a)
      (a :: r.1, r.2.1, r.2.2)

/-- Constructor walk with sufficient fuel. -/
def uWalkC (g : UGraph) (ne : List (List UArc)) (vis : List Bool) (s : Nat) :
    List UArc × List (List UArc) × List Bool :=
  uWalkCF g (sumLens ne) ne vis s

/-- Step-advance walk with sufficient fuel. -/
def uWalkS (g : UGraph) (ne : List (List UArc)) (vis : List Bool) (s : Nat) :
    List UArc × List (List UArc) × List Bool :=
  uWalkSF g (sumLens ne) ne vis s

/-- Start-node scan of the `EulerIt` constructor. -/
def uFirstOut (g : UGraph) : Option Nat :=
  (List.range g.numNodes).find? (fun v => !(uOutArcs g v).isEmpty)

/-- The fully initialized cursor map of the `EulerIt` constructor. -/
def uInitNedge (g : UGraph) : List (List UArc) :=
  (List.range g.numNodes).map (uOutArcs g)

/-- The initial visited-edge map: every edge unvisited. -/
def uInitVis (g : UGraph) : List Bool :=
  List.replicate g.edges.length false

/-- The `EulerIt` constructor: resolve the start node (scanning only when
none is given), initialize the cursor and visited maps, run the initial
walk. -/
def uInit (g : UGraph) (start : Option Nat) : UState :=
  let s0 := match start with
    | some s => some s
    | none => uFirstOut g
  match s0 with
  | none =>
    { nedge := (List.range g.numNodes).map (fun _ => []),
      visited := uInitVis g, euler := [] }
  | some s =>
    let r := uWalkCF g (sumLens (uInitNedge g)) (uInitNedge g) (uInitVis g) s
    { nedge := r.2.1, visited := r.2.2, euler := r.1 }

/-- `EulerIt::operator++`: pop the front of the trail and splice the walk
from its target in front of the remaining trail.  Total model; undefined
C++ behavior on an empty trail is modelled by the guarded variant. -/
def uStep (g : UGraph) (st : UState) : UState :=
  match st.euler with
  | [] => st
  | e :: rest =>
    let r := uWalkS g st.nedge st.visited (g.target e)
    { nedge := r.2.1, visited := r.2.2, euler := r.1 ++ rest }

/-- Guarded advance for the undirected iterator. -/
def uStepChecked (g : UGraph) (st : UState) : Option UState :=
  match st.euler with
  | [] => none
  | _ :: _ => some (uStep g st)

/-- `operator Arc()` of `EulerIt`. -/
def uArc (st : UState) : Option UArc :=
  match st.euler with
  | [] => none
  | a :: _ => some a

/-- `operator Edge()` of `EulerIt`: the underlying edge of the front arc. -/
def uEdge (st : UState) : Option Nat :=
  match st.euler with
  | [] => none
  | a :: _ => some a.1

/-- The arc conversion as a state transformer (reads, writes nothing). -/
def uArcRead (st : UState) : Option UArc × UState :=
  (uArc st, st)

/-- The edge conversion as a state transformer (reads, writes nothing). -/
def uEdgeRead (st : UState) : Option Nat × UState :=
  (uEdge st, st)

/-- `operator!=(Invalid)` of `EulerIt`. -/
def uHasMore (st : UState) : Bool :=
  !st.euler.isEmpty

/-- `Arc operator++(int)` of `EulerIt`. -/
def uPostInc (g : UGraph) (st : UState) : Option UArc × UState :=
  (uArc st, uStep g st)

/-- The whole emitted sequence of the undirected iterator. -/
def uRunF (g : UGraph) : Nat → UState → List UArc
  | 0, _ => []
  | fuel + 1, st =>
    match st.euler with
    | [] => []
    | e :: _ => e :: uRunF g fuel (uStep g st)

/-- The emitted sequence with sufficient fuel. -/
def uRun (g : UGraph) (st : UState) : List UArc :=
  uRunF g (st.euler.length + sumLens st.nedge) st

/-- The full arc sequence produced by `EulerIt(gr, start)` iterated to the
sentinel. -/
def uTour (g : UGraph) (start : Option Nat) : List UArc :=
  uRun g (uInit g start)

/-- Modelled from the spec: the Connectivity collaborator (`connected` of
`lemon/connectivity.h` is not part of the sources at hand).  Symmetric
adjacency induced by a list of node pairs: `u` and `v` are adjacent when
some pair joins them in either order.  For a digraph this applied to its
arc list is exactly adjacency of the `Undirector` view. -/
def adjPairs (pairs : List (Nat × Nat)) (u v : Nat) : Bool :=
  pairs.any (fun p => (p.1 == u && p.2 == v) || (p.1 == v && p.2 == u))

/-- Modelled from the spec: bounded reachability along `adjPairs` within
`fuel` steps, nodes drawn from `0 .. n-1`. -/
def reachPairs (n : Nat) (pairs : List (Nat × Nat)) : Nat → Nat → Nat → Bool
  | 0, u, v => u == v
  | fuel + 1, u, v =>
    u == v || (List.range n).any (fun w => adjPairs pairs u w && reachPairs n pairs fuel w v)

/-- Modelled from the spec: the Connectivity collaborator.  A graph on `n`
nodes with the given (symmetrically read) pair list is connected when it is
empty or every node is reachable from node `0`; a path never needs more
than `n` steps, so fuel `n` suffices. -/
def connectedPairs (n : Nat) (pairs : List (Nat × Nat)) : Bool :=
  n == 0 || (List.range n).all (fun v => reachPairs n pairs n 0 v)

/-- Modelled from the spec: `countOutArcs` of the degree-counting
collaborator (`lemon/core.h` is not part of the sources at hand): the
number of outgoing arcs of `v`. -/
def countOutArcs (g : Digraph) (v : Nat) : Nat :=
  (List.range g.arcs.length).countP (fun a => g.source a == v)

/-- Modelled from the spec: `countInArcs`: the number of incoming arcs. -/
def countInArcs (g : Digraph) (v : Nat) : Nat :=
  (List.range g.arcs.length).countP (fun a => g.target a == v)

/-- Modelled from the spec: `countIncEdges`: the number of incident arcs of
a node of an undirected graph (a loop edge counts twice). -/
def countIncEdges (g : UGraph) (v : Nat) : Nat :=
  (uOutArcs g v).length

/-- `eulerian` for undirected graphs (`euler.h` lines 257-263): every node
has an even number of incident arcs, and the graph is connected. -/
def eulerian (g : UGraph) : Bool :=
  ((List.range g.numNodes).all (fun v => countIncEdges g v % 2 == 0)) &&
    connectedPairs g.numNodes g.edges

/-- `eulerian` for digraphs (`euler.h` lines 264-272): in-degree equals
out-degree at every node, and `Undirector(g)` — the graph with arc
directions ignored — is connected. -/
def eulerianDi (g : Digraph) : Bool :=
  ((List.range g.numNodes).all (fun v => countInArcs g v == countOutArcs g v)) &&
    connectedPairs g.numNodes g.arcs

/-- The "figure eight" digraph: two directed triangles `0→1→2→0` and
`0→3→4→0` sharing exactly node `0`.  Arcs `0,1,2` form the first triangle,
arcs `3,4,5` the second. -/
def figEight : Digraph :=
  { numNodes := 5, arcs := [(0, 1), (1, 2), (2, 0), (0, 3), (3, 4), (4, 0)] }

/-- A two-node digraph with a single arc `1 → 0`; node `0` has no outgoing
arc while node `1` has one. -/
def deadStartG : Digraph :=
  { numNodes := 2, arcs := [(1, 0)] }

/-- The undirected path graph on three nodes (`0 - 1 - 2`). -/
def uPath3 : UGraph :=
  { numNodes := 3, edges := [(0, 1), (1, 2)] }

/-- The bookkeeping invariant of the undirected iterator that guarantees
edge uniqueness: the edges underlying the trail are pairwise distinct and
all marked visited, and every edge id held by a cursor is within the
visited map. -/
structure UInv (g : UGraph) (st : UState) : Prop where
  hnd : (st.euler.map Prod.fst).Nodup
  hvis : ∀ a ∈ st.euler, st.visited.getD a.1 false = true
  hlen : ∀ a ∈ st.nedge.flatten, a.1 < st.visited.length

/-- A list of arcs is a walk starting at `s`: each arc leaves the node the
previous one entered. -/
def chainFrom (g : Digraph) : Nat → List Nat → Prop
  | _, [] => True
  | s, a :: t => g.source a = s ∧ chainFrom g (g.target a) t

/-- The node where a walk starting at `s` ends. -/
def walkEnd (g : Digraph) : Nat → List Nat → Nat
  | s, [] => s
  | _, a :: t => walkEnd g (g.target a) t

/-- Number of arcs in `l` leaving `v`. -/
def outCount (g : Digraph) (v : Nat) (l : List Nat) : Nat :=
  l.countP (fun a => g.source a == v)

/-- Number of arcs in `l` entering `v`. -/
def inCount (g : Digraph) (v : Nat) (l : List Nat) : Nat :=
  l.countP (fun a => g.target a == v)

/-- Cursor-map soundness: the cursor of node `v` only holds arcs leaving
`v`. -/
def SrcOk (g : Digraph) (ne : List (List Nat)) : Prop :=
  ∀ v, ∀ a ∈ ne.getD v [], g.source a = v

/-- The arcs still held by the cursor map form a balanced (sub)graph:
in-degree equals out-degree at every node. -/
def Balanced (g : Digraph) (ne : List (List Nat)) : Prop :=
  ∀ v, inCount g v ne.flatten = outCount g v ne.flatten

/-- The loop invariant of the directed iterator, relating the arcs emitted
so far, the current state, and the start node `s0` of the tour: the cursor
map is sound and balanced, every arc of the graph lives exactly once in
emitted-trail-cursors, the emitted prefix followed by the trail is a closed
walk from `s0`, and the cursor of `s0` and of every emitted arc's target is
exhausted. -/
structure DiInv (g : Digraph) (s0 : Nat) (emitted : List Nat) (st : DiState) : Prop where
  hlen : st.nedge.length = g.numNodes
  hsrc : SrcOk g st.nedge
  hbal : Balanced g st.nedge
  hperm : ((emitted ++ st.euler) ++ st.nedge.flatten).Perm (List.range g.arcs.length)
  hchain : chainFrom g s0 (emitted ++ st.euler)
  hend : walkEnd g s0 (emitted ++ st.euler) = s0
  hdrain : ∀ e ∈ emitted, st.nedge.getD (g.target e) [] = []
  hs0d : st.nedge.getD s0 [] = []
  hs0lt : s0 < g.numNodes

theorem getD_set_self {α : Type} (ne : List α) (s : Nat) (x : α) (d : α) (hs : s < ne.length) :
    (ne.set s x).getD s d = x := by
  rw [List.getD_eq_getElem?_getD, List.getElem?_set_self hs]
  rfl

theorem getD_set_ne {α : Type} (ne : List α) (s v : Nat) (x : α) (d : α) (hv : s ≠ v) :
    (ne.set s x).getD v d = ne.getD v d := by
  rw [List.getD_eq_getElem?_getD, List.getElem?_set_ne hv, ← List.getD_eq_getElem?_getD]

theorem getD_lt_of_ne_nil {α : Type} {ne : List (List α)} {s : Nat}
    (h : ne.getD s [] ≠ []) : s < ne.length := by
  by_contra hs
  exact h (List.getD_eq_default _ _ (Nat.le_of_not_lt hs))

theorem sumLens_cons {α : Type} (c : List α) (t : List (List α)) :
    sumLens (c :: t) = c.length + sumLens t := by
  simp [sumLens]

theorem sumLens_set {α : Type} (ne : List (List α)) (s : Nat) (l' : List α)
    (hs : s < ne.length) :
    sumLens (ne.set s l') + (ne.getD s []).length = sumLens ne + l'.length := by
  induction ne generalizing s with
  | nil => simp at hs
  | cons c t ih =>
    cases s with
    | zero => simp [sumLens_cons]; omega
    | succ s' =>
      have hs' : s' < t.length := by simpa using hs
      have := ih s' hs'
      simp only [List.set_cons_succ, sumLens_cons, List.getD_cons_succ]
      omega

theorem sumLens_zero_getD {α : Type} {ne : List (List α)} (h : sumLens ne = 0) (v : Nat) :
    ne.getD v [] = [] := by
  by_contra hne
  have hv := getD_lt_of_ne_nil hne
  have hmem : ne.getD v [] ∈ ne := by
    rw [List.getD_eq_getElem _ _ hv]
    exact List.getElem_mem hv
  have : (ne.getD v []).length ≤ sumLens ne := by
    have := List.single_le_sum (l := ne.map List.length) (by simp) (ne.getD v []).length
      (by exact List.mem_map_of_mem List.length hmem)
    simpa [sumLens] using this
  have : (ne.getD v []).length = 0 := by omega
  exact hne (List.eq_nil_of_length_eq_zero this)

theorem flatten_set_perm {α : Type} (ne : List (List α)) (s : Nat) (a : α) (rest : List α)
    (h : ne.getD s [] = a :: rest) :
    ne.flatten.Perm (a :: (ne.set s rest).flatten) := by
  induction ne generalizing s with
  | nil => simp [List.getD] at h
  | cons c t ih =>
    cases s with
    | zero =>
      rw [List.getD_cons_zero] at h
      subst h
      simp
    | succ s' =>
      have h' : t.getD s' [] = a :: rest := by simpa using h
      have hperm := ih s' h'
      have h1 : (c ++ t.flatten).Perm (c ++ (a :: (t.set s' rest).flatten)) :=
        hperm.append_left c
      have h2 : (c ++ (a :: (t.set s' rest).flatten)).Perm
          (a :: (c ++ (t.set s' rest).flatten)) := List.perm_middle
      simpa using h1.trans h2

theorem mem_flatten_of_getD {α : Type} {ne : List (List α)} {v : Nat} {a : α}
    (h : a ∈ ne.getD v []) : a ∈ ne.flatten := by
  have hv : v < ne.length := getD_lt_of_ne_nil (by intro hnil; rw [hnil] at h; simp at h)
  rw [List.mem_flatten]
  refine ⟨ne.getD v [], ?_, h⟩
  rw [List.getD_eq_getElem _ _ hv]
  exact List.getElem_mem hv

theorem SrcOk.set {g : Digraph} {ne : List (List Nat)} (hsrc : SrcOk g ne) {s : Nat}
    {a : Nat} {rest : List Nat} (h : ne.getD s [] = a :: rest) :
    SrcOk g (ne.set s rest) := by
  intro v b hb
  by_cases hvs : s = v
  · subst hvs
    have hslt : s < ne.length := getD_lt_of_ne_nil (by rw [h]; simp)
    rw [getD_set_self _ _ _ _ hslt] at hb
    exact hsrc s b (by rw [h]; exact List.mem_cons_of_mem a hb)
  · rw [getD_set_ne _ _ _ _ _ hvs] at hb
    exact hsrc v b hb

theorem diWalkF_succ (g : Digraph) (f : Nat) (ne : List (List Nat)) (s : Nat) :
    diWalkF g (f + 1) ne s =
      match ne.getD s [] with
      | [] => ([], ne)
      | a :: rest =>
        (a :: (diWalkF g f (ne.set s rest) (g.target a)).1,
          (diWalkF g f (ne.set s rest) (g.target a)).2) := rfl

theorem diWalkF_length (g : Digraph) :
    ∀ (fuel : Nat) (ne : List (List Nat)) (s : Nat),
      (diWalkF g fuel ne s).2.length = ne.length := by
  intro fuel
  induction fuel with
  | zero => intro ne s; rfl
  | succ f ih =>
    intro ne s
    cases h : ne.getD s [] with
    | nil => rw [diWalkF_succ, h]
    | cons a rest =>
      rw [diWalkF_succ, h]
      simpa using ih (ne.set s rest) (g.target a)

theorem diWalkF_perm (g : Digraph) :
    ∀ (fuel : Nat) (ne : List (List Nat)) (s : Nat),
      ((diWalkF g fuel ne s).1 ++ (diWalkF g fuel ne s).2.flatten).Perm ne.flatten := by
  intro fuel
  induction fuel with
  | zero => intro ne s; simp [diWalkF]
  | succ f ih =>
    intro ne s
    cases h : ne.getD s [] with
    | nil => rw [diWalkF_succ, h]; simp
    | cons a rest =>
      have ihp := ih (ne.set s rest) (g.target a)
      have hsp := flatten_set_perm ne s a rest h
      rw [diWalkF_succ, h]
      simpa using (ihp.cons a).trans hsp.symm

theorem diWalkF_suffix (g : Digraph) :
    ∀ (fuel : Nat) (ne : List (List Nat)) (s v : Nat),
      (diWalkF g fuel ne s).2.getD v [] <:+ ne.getD v [] := by
  intro fuel
  induction fuel with
  | zero => intro ne s v; exact List.suffix_refl _
  | succ f ih =>
    intro ne s v
    cases h : ne.getD s [] with
    | nil => rw [diWalkF_succ, h]
    | cons a rest =>
      have ihs := ih (ne.set s rest) (g.target a) v
      have hstep : (ne.set s rest).getD v [] <:+ ne.getD v [] := by
        by_cases hvs : s = v
        · subst hvs
          have hslt : s < ne.length := getD_lt_of_ne_nil (by rw [h]; simp)
          rw [getD_set_self _ _ _ _ hslt, h]
          exact List.suffix_cons a rest
        · rw [getD_set_ne _ _ _ _ _ hvs]
      rw [diWalkF_succ, h]
      exact ihs.trans hstep

theorem diWalkF_srcOk (g : Digraph) (fuel : Nat) (ne : List (List Nat)) (s : Nat)
    (hsrc : SrcOk g ne) : SrcOk g (diWalkF g fuel ne s).2 := by
  intro v a ha
  exact hsrc v a ((diWalkF_suffix g fuel ne s v).subset ha)

theorem diWalkF_chain (g : Digraph) :
    ∀ (fuel : Nat) (ne : List (List Nat)) (s : Nat), SrcOk g ne →
      chainFrom g s (diWalkF g fuel ne s).1 := by
  intro fuel
  induction fuel with
  | zero => intro ne s _; trivial
  | succ f ih =>
    intro ne s hsrc
    cases h : ne.getD s [] with
    | nil => rw [diWalkF_succ, h]; trivial
    | cons a rest =>
      have hmem : a ∈ ne.getD s [] := by rw [h]; exact List.mem_cons_self a rest
      have hchain := ih (ne.set s rest) (g.target a) (hsrc.set h)
      rw [diWalkF_succ, h]
      exact ⟨hsrc s a hmem, hchain⟩

theorem diWalkF_end (g : Digraph) :
    ∀ (fuel : Nat) (ne : List (List Nat)) (s : Nat), sumLens ne ≤ fuel →
      (diWalkF g fuel ne s).2.getD (walkEnd g s (diWalkF g fuel ne s).1) [] = [] := by
  intro fuel
  induction fuel with
  | zero =>
    intro ne s hfuel
    exact sumLens_zero_getD (Nat.le_zero.mp hfuel) s
  | succ f ih =>
    intro ne s hfuel
    cases h : ne.getD s [] with
    | nil => rw [diWalkF_succ, h]; exact h
    | cons a rest =>
      have hslt : s < ne.length := getD_lt_of_ne_nil (by rw [h]; simp)
      have hsum := sumLens_set ne s rest hslt
      have hfuel' : sumLens (ne.set s rest) ≤ f := by
        rw [h] at hsum; simp at hsum; omega
      have ihe := ih (ne.set s rest) (g.target a) hfuel'
      rw [diWalkF_succ, h]
      exact ihe

theorem chainCount (g : Digraph) :
    ∀ (t : List Nat) (s : Nat), chainFrom g s t → ∀ v,
      outCount g v t + (if walkEnd g s t = v then 1 else 0) =
        inCount g v t + (if s = v then 1 else 0) := by
  intro t
  induction t with
  | nil => intro s _ v; simp [outCount, inCount, walkEnd]
  | cons a t ih =>
    intro s hchain v
    obtain ⟨hsrc, hrest⟩ := hchain
    have ihv := ih (g.target a) hrest v
    have hout : outCount g v (a :: t) = outCount g v t + (if g.source a = v then 1 else 0) := by
      simp [outCount, List.countP_cons]
    have hin : inCount g v (a :: t) = inCount g v t + (if g.target a = v then 1 else 0) := by
      simp [inCount, List.countP_cons]
    have hwe : walkEnd g s (a :: t) = walkEnd g (g.target a) t := rfl
    rw [hout, hin, hwe, hsrc]
    by_cases h1 : s = v <;> by_cases h2 : g.target a = v <;>
      by_cases h3 : walkEnd g (g.target a) t = v <;>
      simp [h1, h2, h3] at ihv ⊢ <;> omega

theorem countP_flatten_src (g : Digraph) (v : Nat) :
    ∀ (L : List (List Nat)) (off : Nat),
      (∀ i, ∀ a ∈ L.getD i [], g.source a = off + i) →
      outCount g v L.flatten = if v < off then 0 else (L.getD (v - off) []).length := by
  intro L
  induction L with
  | nil =>
    intro off _
    simp [outCount, List.getD]
  | cons c L ih =>
    intro off H
    have Hc : ∀ a ∈ c, g.source a = off := fun a ha => by
      simpa using H 0 a (by simpa using ha)
    have HL : ∀ i, ∀ a ∈ L.getD i [], g.source a = (off + 1) + i := fun i a ha => by
      have := H (i + 1) a (by simpa using ha)
      omega
    have ihL := ih (off + 1) HL
    have hsplit : outCount g v ((c :: L).flatten) = outCount g v c + outCount g v L.flatten := by
      simp [outCount, List.countP_append]
    rcases Nat.lt_trichotomy v off with hvo | hvo | hvo
    · have hc0 : outCount g v c = 0 := by
        rw [outCount, List.countP_eq_zero]
        intro a ha
        simp [Hc a ha]
        omega
      rw [hsplit, hc0, ihL, if_pos (by omega : v < off + 1), if_pos hvo]
    · subst hvo
      have hcl : outCount g v c = c.length := by
        rw [outCount, List.countP_eq_length]
        intro a ha
        simp [Hc a ha]
      rw [hsplit, hcl, ihL, if_pos (by omega), if_neg (by omega)]
      simp
    · have hc0 : outCount g v c = 0 := by
        rw [outCount, List.countP_eq_zero]
        intro a ha
        simp [Hc a ha]
        omega
      have harith : v - off = (v - (off + 1)) + 1 := by omega
      rw [hsplit, hc0, ihL, if_neg (by omega), if_neg (by omega), harith]
      simp

theorem outCount_flatten (g : Digraph) (ne : List (List Nat)) (hsrc : SrcOk g ne) (v : Nat) :
    outCount g v ne.flatten = (ne.getD v []).length := by
  have := countP_flatten_src g v ne 0 (fun i a ha => by simpa using hsrc i a ha)
  simpa using this

theorem closed_of_parts (g : Digraph) (s e : Nat) (t : List Nat) (ne ne' : List (List Nat))
    (he : walkEnd g s t = e)
    (hperm : (t ++ ne'.flatten).Perm ne.flatten)
    (hchain : chainFrom g s t)
    (hsrc' : SrcOk g ne')
    (hend : ne'.getD e [] = [])
    (hbal : Balanced g ne) :
    e = s ∧ Balanced g ne' := by
  have hout : ∀ v, outCount g v ne.flatten = outCount g v t + outCount g v ne'.flatten :=
    fun v => by rw [outCount, ← hperm.countP_eq, List.countP_append]; rfl
  have hin : ∀ v, inCount g v ne.flatten = inCount g v t + inCount g v ne'.flatten :=
    fun v => by rw [inCount, ← hperm.countP_eq, List.countP_append]; rfl
  have hcc := chainCount g t s hchain
  simp only [he] at hcc
  have hone : outCount g e ne'.flatten = 0 := by
    rw [outCount_flatten g _ hsrc', hend]
    rfl
  have hse : e = s := by
    by_contra hne_eq
    have h1 := hcc e
    have h2 := hout e
    have h3 := hin e
    have h4 := hbal e
    rw [if_pos rfl, if_neg (fun hh => hne_eq hh.symm)] at h1
    omega
  refine ⟨hse, fun v => ?_⟩
  have h1 := hcc v
  rw [hse] at h1
  have h2 := hout v
  have h3 := hin v
  have h4 := hbal v
  by_cases h5 : s = v
  · simp only [if_pos h5] at h1
    omega
  · simp only [if_neg h5] at h1
    omega

theorem diWalkF_closed (g : Digraph) (fuel : Nat) (ne : List (List Nat)) (s : Nat)
    (hsrc : SrcOk g ne) (hbal : Balanced g ne) (hfuel : sumLens ne ≤ fuel) :
    walkEnd g s (diWalkF g fuel ne s).1 = s ∧ Balanced g (diWalkF g fuel ne s).2 := by
  obtain ⟨h1, h2⟩ := closed_of_parts g s (walkEnd g s (diWalkF g fuel ne s).1)
    (diWalkF g fuel ne s).1 ne (diWalkF g fuel ne s).2 rfl
    (diWalkF_perm g fuel ne s) (diWalkF_chain g fuel ne s hsrc)
    (diWalkF_srcOk g fuel ne s hsrc) (diWalkF_end g fuel ne s hfuel) hbal
  exact ⟨h1, h2⟩

theorem walkEnd_append (g : Digraph) :
    ∀ (l1 l2 : List Nat) (s : Nat),
      walkEnd g s (l1 ++ l2) = walkEnd g (walkEnd g s l1) l2 := by
  intro l1
  induction l1 with
  | nil => intro l2 s; rfl
  | cons a t ih => intro l2 s; simpa [walkEnd] using ih l2 (g.target a)

theorem chainFrom_append (g : Digraph) :
    ∀ (l1 l2 : List Nat) (s : Nat),
      chainFrom g s (l1 ++ l2) ↔ chainFrom g s l1 ∧ chainFrom g (walkEnd g s l1) l2 := by
  intro l1
  induction l1 with
  | nil => intro l2 s; simp [chainFrom, walkEnd]
  | cons a t ih =>
    intro l2 s
    simp [chainFrom, walkEnd, ih, and_assoc]

theorem walkEnd_lastTgt (g : Digraph) :
    ∀ (l : List Nat) (s d : Nat), l ≠ [] → walkEnd g s l = g.target (l.getLastD d) := by
  intro l
  induction l with
  | nil => intro s d h; exact absurd rfl h
  | cons a t ih =>
    intro s d _
    cases t with
    | nil => rfl
    | cons b t' => simpa [walkEnd, List.getLastD_cons] using ih (g.target a) a (by simp)

theorem chain_src_mem (g : Digraph) :
    ∀ (l : List Nat) (s : Nat), chainFrom g s l → ∀ a ∈ l,
      g.source a = s ∨ g.source a ∈ l.map g.target := by
  intro l
  induction l with
  | nil => intro s _ a ha; simp at ha
  | cons b t ih =>
    intro s hchain a ha
    obtain ⟨hb, hc⟩ := hchain
    rcases List.mem_cons.mp ha with rfl | hat
    · exact Or.inl hb
    · rcases ih (g.target b) hc a hat with h | h
      · exact Or.inr (by simp [h])
      · exact Or.inr (by simp; right; simpa using h)

theorem diStep_cons (g : Digraph) (st : DiState) (e : Nat) (rest : List Nat)
    (heuler : st.euler = e :: rest) :
    diStep g st = { nedge := (diWalk g st.nedge (g.target e)).2,
                    euler := (diWalk g st.nedge (g.target e)).1 ++ rest } := by
  unfold diStep
  rw [heuler]

theorem perm_step_glue {α : Type} (L : List α) (e : α) (T R N' N Rng : List α)
    (hw : (T ++ N').Perm N)
    (hp : ((L ++ e :: R) ++ N).Perm Rng) :
    (((L ++ [e]) ++ (T ++ R)) ++ N').Perm Rng := by
  rw [List.append_cons] at hp
  rw [← Multiset.coe_eq_coe] at hw hp ⊢
  simp only [← Multiset.coe_add] at hw hp ⊢
  rw [← hp, ← hw]
  abel

theorem diInv_step (g : Digraph) (s0 : Nat) (emitted : List Nat) (st : DiState)
    (e : Nat) (rest : List Nat) (heuler : st.euler = e :: rest)
    (hInv : DiInv g s0 emitted st) :
    DiInv g s0 (emitted ++ [e]) (diStep g st) := by
  obtain ⟨hlen, hsrc, hbal, hperm, hchain, hend, hdrain, hs0d, hs0lt⟩ := hInv
  rw [diStep_cons g st e rest heuler]
  rw [heuler] at hperm hchain hend
  have hwperm : ((diWalk g st.nedge (g.target e)).1 ++
      (diWalk g st.nedge (g.target e)).2.flatten).Perm st.nedge.flatten :=
    diWalkF_perm g (sumLens st.nedge) st.nedge (g.target e)
  have hwchain : chainFrom g (g.target e) (diWalk g st.nedge (g.target e)).1 :=
    diWalkF_chain g (sumLens st.nedge) st.nedge (g.target e) hsrc
  have hwsrc : SrcOk g (diWalk g st.nedge (g.target e)).2 :=
    diWalkF_srcOk g (sumLens st.nedge) st.nedge (g.target e) hsrc
  obtain ⟨hwe0, hbal0⟩ := diWalkF_closed g (sumLens st.nedge) st.nedge (g.target e)
    hsrc hbal (le_refl _)
  have hwe : walkEnd g (g.target e) (diWalk g st.nedge (g.target e)).1 = g.target e := hwe0
  have hbal' : Balanced g (diWalk g st.nedge (g.target e)).2 := hbal0
  have hwend : (diWalk g st.nedge (g.target e)).2.getD (g.target e) [] = [] := by
    have h0 := diWalkF_end g (sumLens st.nedge) st.nedge (g.target e) (le_refl _)
    rw [hwe0] at h0
    exact h0
  have hsuffix : ∀ v, (diWalk g st.nedge (g.target e)).2.getD v [] <:+ st.nedge.getD v [] :=
    diWalkF_suffix g (sumLens st.nedge) st.nedge (g.target e)
  have hmid : walkEnd g s0 (emitted ++ [e]) = g.target e := by
    rw [walkEnd_append]
    rfl
  refine ⟨?_, hwsrc, hbal', ?_, ?_, ?_, ?_, ?_, hs0lt⟩
  · exact (diWalkF_length g (sumLens st.nedge) st.nedge (g.target e)).trans hlen
  · -- permutation invariant
    exact perm_step_glue emitted e (diWalk g st.nedge (g.target e)).1 rest
      (diWalk g st.nedge (g.target e)).2.flatten st.nedge.flatten _ hwperm hperm
  · -- chain invariant
    rw [List.append_cons emitted e rest, chainFrom_append] at hchain
    obtain ⟨hc1, hc2⟩ := hchain
    rw [hmid] at hc2
    rw [chainFrom_append]
    refine ⟨hc1, ?_⟩
    rw [hmid, chainFrom_append, hwe]
    exact ⟨hwchain, hc2⟩
  · -- closed-walk invariant
    rw [List.append_cons emitted e rest, walkEnd_append, hmid] at hend
    rw [walkEnd_append, hmid, walkEnd_append, hwe]
    exact hend
  · intro e' he'
    rcases List.mem_append.mp he' with h | h
    · have hold := hdrain e' h
      have hsfx := hsuffix (g.target e')
      rw [hold] at hsfx
      exact List.suffix_nil.mp hsfx
    · have he'e : e' = e := by simpa using h
      subst he'e
      exact hwend
  · have hsfx := hsuffix s0
    rw [hs0d] at hsfx
    exact List.suffix_nil.mp hsfx

theorem mem_getD_source (g : Digraph) (ne : List (List Nat)) (hsrc : SrcOk g ne) {a : Nat}
    (ha : a ∈ ne.flatten) : a ∈ ne.getD (g.source a) [] ∧ g.source a < ne.length := by
  rw [List.mem_flatten] at ha
  obtain ⟨l, hl, hal⟩ := ha
  rw [List.mem_iff_getElem] at hl
  obtain ⟨i, hi, hil⟩ := hl
  have hgd : ne.getD i [] = l := by rw [List.getD_eq_getElem _ _ hi, hil]
  have hsa : g.source a = i := hsrc i a (by rw [hgd]; exact hal)
  rw [hsa, hgd]
  exact ⟨hal, hsa ▸ hi⟩

theorem reachPairs_rtg (n : Nat) (pairs : List (Nat × Nat)) :
    ∀ (fuel u v : Nat), reachPairs n pairs fuel u v = true →
      Relation.ReflTransGen (fun x y => adjPairs pairs x y = true) u v := by
  intro fuel
  induction fuel with
  | zero =>
    intro u v h
    have huv : u = v := by simpa [reachPairs] using h
    exact huv ▸ Relation.ReflTransGen.refl
  | succ f ih =>
    intro u v h
    simp only [reachPairs, Bool.or_eq_true] at h
    rcases h with h | h
    · have huv : u = v := by simpa using h
      exact huv ▸ Relation.ReflTransGen.refl
    · rw [List.any_eq_true] at h
      obtain ⟨w, _, hw⟩ := h
      rw [Bool.and_eq_true] at hw
      exact Relation.ReflTransGen.head hw.1 (ih w v hw.2)

theorem adjPairs_symm (pairs : List (Nat × Nat)) (u v : Nat)
    (h : adjPairs pairs u v = true) : adjPairs pairs v u = true := by
  simp only [adjPairs, List.any_eq_true] at h ⊢
  obtain ⟨p, hp, hcond⟩ := h
  refine ⟨p, hp, ?_⟩
  rw [Bool.or_comm]
  exact hcond

theorem rtg_crossing {r : Nat → Nat → Prop} {P : Nat → Prop} :
    ∀ {a b : Nat}, Relation.ReflTransGen r a b → P a → ¬ P b →
      ∃ x y, r x y ∧ P x ∧ ¬ P y := by
  intro a b h
  induction h with
  | refl => intro hpa hpb; exact absurd hpa hpb
  | @tail c d hac hcd ih =>
    intro hpa hpd
    by_cases hpc : P c
    · exact ⟨c, d, hcd, hpc, hpd⟩
    · exact ih hpa hpc

theorem adjPairs_arc (g : Digraph) {x y : Nat} (h : adjPairs g.arcs x y = true) :
    ∃ b, b < g.arcs.length ∧
      ((g.source b = x ∧ g.target b = y) ∨ (g.source b = y ∧ g.target b = x)) := by
  simp only [adjPairs, List.any_eq_true, Bool.or_eq_true, Bool.and_eq_true, beq_iff_eq] at h
  obtain ⟨p, hp, hcond⟩ := h
  rw [List.mem_iff_getElem] at hp
  obtain ⟨i, hi, hip⟩ := hp
  have hsrc : g.source i = p.1 := by rw [Digraph.source, List.getD_eq_getElem _ _ hi, hip]
  have htgt : g.target i = p.2 := by rw [Digraph.target, List.getD_eq_getElem _ _ hi, hip]
  refine ⟨i, hi, ?_⟩
  rcases hcond with ⟨h1, h2⟩ | ⟨h1, h2⟩
  · exact Or.inl ⟨hsrc.trans h1, htgt.trans h2⟩
  · exact Or.inr ⟨hsrc.trans h1, htgt.trans h2⟩

theorem connectedPairs_reach (n : Nat) (pairs : List (Nat × Nat))
    (hconn : connectedPairs n pairs = true) (hn : n ≠ 0) :
    ∀ v, v < n → Relation.ReflTransGen (fun x y => adjPairs pairs x y = true) 0 v := by
  intro v hv
  simp only [connectedPairs, Bool.or_eq_true, List.all_eq_true] at hconn
  rcases hconn with h | h
  · exact absurd (by simpa using h) hn
  · exact reachPairs_rtg n pairs n 0 v (h v (List.mem_range.mpr hv))

theorem diInv_final (g : Digraph)
    (hconn : connectedPairs g.numNodes g.arcs = true)
    (s0 : Nat) (emitted : List Nat) (st : DiState)
    (hInv : DiInv g s0 emitted st) (heuler : st.euler = []) :
    st.nedge.flatten = [] := by
  obtain ⟨hlen, hsrc, hbal, hperm, hchain, hend, hdrain, hs0d, hs0lt⟩ := hInv
  rw [heuler, List.append_nil] at hperm hchain hend
  by_contra hne
  obtain ⟨a, ha⟩ := List.exists_mem_of_ne_nil _ hne
  obtain ⟨hamem, halt⟩ := mem_getD_source g st.nedge hsrc ha
  have hdrainP : ∀ v, (v = s0 ∨ v ∈ emitted.map g.target) → st.nedge.getD v [] = [] := by
    intro v hv
    rcases hv with rfl | hv
    · exact hs0d
    · rw [List.mem_map] at hv
      obtain ⟨e, he, hev⟩ := hv
      rw [← hev]
      exact hdrain e he
  have hPu : ¬ (g.source a = s0 ∨ g.source a ∈ emitted.map g.target) := by
    intro hp
    have h0 := hdrainP _ hp
    rw [h0] at hamem
    simp at hamem
  have hult : g.source a < g.numNodes := by rw [← hlen]; exact halt
  have hn0 : g.numNodes ≠ 0 := by omega
  have hreach := connectedPairs_reach g.numNodes g.arcs hconn hn0
  have hsymm : Symmetric (fun x y => adjPairs g.arcs x y = true) :=
    fun x y h => adjPairs_symm g.arcs x y h
  have hr1 : Relation.ReflTransGen (fun x y => adjPairs g.arcs x y = true) s0 (g.source a) :=
    ((Relation.ReflTransGen.symmetric hsymm) (hreach s0 hs0lt)).trans (hreach _ hult)
  obtain ⟨x, y, hxy, hPx, hPy⟩ :=
    rtg_crossing (P := fun v => v = s0 ∨ v ∈ emitted.map g.target) hr1 (Or.inl rfl) hPu
  obtain ⟨b, hblt, hb⟩ := adjPairs_arc g hxy
  have hbmem : b ∈ emitted ∨ b ∈ st.nedge.flatten := by
    have hmem : b ∈ emitted ++ st.nedge.flatten := hperm.mem_iff.mpr (List.mem_range.mpr hblt)
    exact List.mem_append.mp hmem
  rcases hbmem with hbe | hbf
  · have htgtP : g.target b = s0 ∨ g.target b ∈ emitted.map g.target :=
      Or.inr (List.mem_map_of_mem g.target hbe)
    have hsrcP : g.source b = s0 ∨ g.source b ∈ emitted.map g.target :=
      chain_src_mem g emitted s0 hchain b hbe
    rcases hb with ⟨h1, h2⟩ | ⟨h1, h2⟩
    · exact hPy (h2 ▸ htgtP)
    · exact hPy (h1 ▸ hsrcP)
  · obtain ⟨hbmem2, _⟩ := mem_getD_source g st.nedge hsrc hbf
    rcases hb with ⟨h1, h2⟩ | ⟨h1, h2⟩
    · have h0 := hdrainP x hPx
      rw [h1, h0] at hbmem2
      simp at hbmem2
    · have hout0 : outCount g x st.nedge.flatten = 0 := by
        rw [outCount_flatten g _ hsrc, hdrainP x hPx]
        rfl
      have hin0 : inCount g x st.nedge.flatten = 0 := by
        rw [hbal x]
        exact hout0
      have hpos : 0 < inCount g x st.nedge.flatten := by
        rw [inCount, List.countP_pos_iff]
        exact ⟨b, hbf, by simp [h2]⟩
      omega

theorem diRunF_succ (g : Digraph) (f : Nat) (st : DiState) :
    diRunF g (f + 1) st =
      match st.euler with
      | [] => []
      | e :: _ => e :: diRunF g f (diStep g st) := rfl

theorem diRunF_spec (g : Digraph)
    (hconn : connectedPairs g.numNodes g.arcs = true) :
    ∀ (fuel : Nat) (st : DiState) (s0 : Nat) (emitted : List Nat),
      DiInv g s0 emitted st → st.euler.length + sumLens st.nedge ≤ fuel →
      (emitted ++ diRunF g fuel st).Perm (List.range g.arcs.length) ∧
      chainFrom g s0 (emitted ++ diRunF g fuel st) ∧
      walkEnd g s0 (emitted ++ diRunF g fuel st) = s0 := by
  intro fuel
  induction fuel with
  | zero =>
    intro st s0 emitted hInv hfuel
    have heuler : st.euler = [] :=
      List.eq_nil_of_length_eq_zero (by omega)
    have hflat : st.nedge.flatten = [] := by
      apply List.eq_nil_of_length_eq_zero
      rw [List.length_flatten]
      have h0 : sumLens st.nedge = 0 := by omega
      exact h0
    obtain ⟨_, _, _, hperm, hchain, hend, _, _, _⟩ := hInv
    rw [heuler, List.append_nil] at hperm hchain hend
    rw [hflat, List.append_nil] at hperm
    rw [show diRunF g 0 st = [] from rfl, List.append_nil]
    exact ⟨hperm, hchain, hend⟩
  | succ f ih =>
    intro st s0 emitted hInv hfuel
    cases heuler : st.euler with
    | nil =>
      have hflat := diInv_final g hconn s0 emitted st hInv heuler
      obtain ⟨_, _, _, hperm, hchain, hend, _, _, _⟩ := hInv
      rw [heuler, List.append_nil] at hperm hchain hend
      rw [hflat, List.append_nil] at hperm
      rw [diRunF_succ, heuler, List.append_nil]
      exact ⟨hperm, hchain, hend⟩
    | cons e rest =>
      have hInv' := diInv_step g s0 emitted st e rest heuler hInv
      have hlen_t : (diWalk g st.nedge (g.target e)).1.length +
          sumLens (diWalk g st.nedge (g.target e)).2 = sumLens st.nedge := by
        have hp := diWalkF_perm g (sumLens st.nedge) st.nedge (g.target e)
        have hlength := hp.length_eq
        rw [List.length_append, List.length_flatten, List.length_flatten] at hlength
        exact hlength
      have hmeasure : (diStep g st).euler.length + sumLens (diStep g st).nedge ≤ f := by
        rw [diStep_cons g st e rest heuler]
        rw [heuler] at hfuel
        simp only [List.length_append, List.length_cons] at hfuel ⊢
        omega
      have ihr := ih (diStep g st) s0 (emitted ++ [e]) hInv' hmeasure
      rw [diRunF_succ, heuler]
      rw [List.append_cons emitted e (diRunF g f (diStep g st))]
      exact ihr

theorem initNedge_length (g : Digraph) : (initNedge g).length = g.numNodes := by
  simp [initNedge]

theorem initNedge_getD (g : Digraph) {v : Nat} (hv : v < g.numNodes) :
    (initNedge g).getD v [] = outArcs g v := by
  rw [initNedge, List.getD_eq_getElem?_getD, List.getElem?_map, List.getElem?_range hv]
  rfl

theorem initNedge_getD_ge (g : Digraph) {v : Nat} (hv : g.numNodes ≤ v) :
    (initNedge g).getD v [] = [] :=
  List.getD_eq_default _ _ (by rw [initNedge_length]; exact hv)

theorem mem_outArcs_iff (g : Digraph) (v a : Nat) :
    a ∈ outArcs g v ↔ a < g.arcs.length ∧ g.source a = v := by
  simp [outArcs, List.mem_filter, List.mem_range]

theorem initNedge_srcOk (g : Digraph) : SrcOk g (initNedge g) := by
  intro v a ha
  by_cases hv : v < g.numNodes
  · rw [initNedge_getD g hv, mem_outArcs_iff] at ha
    exact ha.2
  · rw [initNedge_getD_ge g (Nat.le_of_not_lt hv)] at ha
    simp at ha

theorem initNedge_flatten_perm (g : Digraph) (hwf : g.wf) :
    (initNedge g).flatten.Perm (List.range g.arcs.length) := by
  have hnd : (initNedge g).flatten.Nodup := by
    rw [List.nodup_flatten]
    constructor
    · intro l hl
      rw [initNedge, List.mem_map] at hl
      obtain ⟨v, _, hv⟩ := hl
      rw [← hv]
      exact (List.nodup_range _).filter _
    · rw [initNedge, List.pairwise_map]
      refine List.Pairwise.imp ?_ (List.nodup_range g.numNodes)
      intro u v huv x hxu hxv
      rw [mem_outArcs_iff] at hxu hxv
      exact huv (hxu.2.symm.trans hxv.2)
  rw [List.perm_ext_iff_of_nodup hnd (List.nodup_range _)]
  intro a
  rw [List.mem_range]
  constructor
  · intro ha
    rw [List.mem_flatten] at ha
    obtain ⟨l, hl, hal⟩ := ha
    rw [initNedge, List.mem_map] at hl
    obtain ⟨v, _, hv⟩ := hl
    rw [← hv, mem_outArcs_iff] at hal
    exact hal.1
  · intro ha
    have hmem : g.arcs.getD a (0, 0) ∈ g.arcs := by
      rw [List.getD_eq_getElem _ _ ha]
      exact List.getElem_mem ha
    have hsrc_lt : g.source a < g.numNodes := (hwf _ hmem).1
    rw [List.mem_flatten]
    refine ⟨outArcs g (g.source a), ?_, ?_⟩
    · rw [initNedge]
      exact List.mem_map_of_mem _ (List.mem_range.mpr hsrc_lt)
    · rw [mem_outArcs_iff]
      exact ⟨ha, rfl⟩

theorem initNedge_balanced (g : Digraph) (hwf : g.wf)
    (hdeg : ∀ v, v < g.numNodes → countInArcs g v = countOutArcs g v) :
    Balanced g (initNedge g) := by
  intro v
  have hperm := initNedge_flatten_perm g hwf
  have hino : inCount g v (initNedge g).flatten = countInArcs g v := by
    rw [inCount, hperm.countP_eq]
    rfl
  have houto : outCount g v (initNedge g).flatten = countOutArcs g v := by
    rw [outCount, hperm.countP_eq]
    rfl
  rw [hino, houto]
  by_cases hv : v < g.numNodes
  · exact hdeg v hv
  · have hi : countInArcs g v = 0 := by
      rw [countInArcs, List.countP_eq_zero]
      intro a ha
      rw [List.mem_range] at ha
      have hmem : g.arcs.getD a (0, 0) ∈ g.arcs := by
        rw [List.getD_eq_getElem _ _ ha]
        exact List.getElem_mem ha
      have h2 : g.target a < g.numNodes := (hwf _ hmem).2
      simp only [beq_iff_eq]
      omega
    have ho : countOutArcs g v = 0 := by
      rw [countOutArcs, List.countP_eq_zero]
      intro a ha
      rw [List.mem_range] at ha
      have hmem : g.arcs.getD a (0, 0) ∈ g.arcs := by
        rw [List.getD_eq_getElem _ _ ha]
        exact List.getElem_mem ha
      have h1 : g.source a < g.numNodes := (hwf _ hmem).1
      simp only [beq_iff_eq]
      omega
    rw [hi, ho]

theorem diInit_inv (g : Digraph) (hwf : g.wf)
    (hdeg : ∀ v, v < g.numNodes → countInArcs g v = countOutArcs g v)
    (s0 : Nat) (hs0 : s0 < g.numNodes) :
    DiInv g s0 []
      { nedge := (diWalk g (initNedge g) s0).2, euler := (diWalk g (initNedge g) s0).1 } := by
  have hsrc0 := initNedge_srcOk g
  have hbal0 := initNedge_balanced g hwf hdeg
  obtain ⟨hwe0, hbal'⟩ :=
    diWalkF_closed g (sumLens (initNedge g)) (initNedge g) s0 hsrc0 hbal0 (le_refl _)
  have hwe : walkEnd g s0 (diWalk g (initNedge g) s0).1 = s0 := hwe0
  have hwperm : ((diWalk g (initNedge g) s0).1 ++
      (diWalk g (initNedge g) s0).2.flatten).Perm (initNedge g).flatten :=
    diWalkF_perm g (sumLens (initNedge g)) (initNedge g) s0
  have hwchain : chainFrom g s0 (diWalk g (initNedge g) s0).1 :=
    diWalkF_chain g (sumLens (initNedge g)) (initNedge g) s0 hsrc0
  have hwend : (diWalk g (initNedge g) s0).2.getD s0 [] = [] := by
    have h0 := diWalkF_end g (sumLens (initNedge g)) (initNedge g) s0 (le_refl _)
    rw [hwe0] at h0
    exact h0
  refine ⟨?_, diWalkF_srcOk g _ _ _ hsrc0, hbal', ?_, ?_, ?_, ?_, hwend, hs0⟩
  · exact (diWalkF_length g (sumLens (initNedge g)) (initNedge g) s0).trans (initNedge_length g)
  · simp only [List.nil_append]
    exact hwperm.trans (initNedge_flatten_perm g hwf)
  · simpa using hwchain
  · simpa using hwe
  · intro e he
    simp at he

theorem diInit_some (g : Digraph) (s : Nat) :
    diInit g (some s) =
      { nedge := (diWalk g (initNedge g) s).2, euler := (diWalk g (initNedge g) s).1 } := rfl

theorem diInit_none_found (g : Digraph) (s : Nat) (h : firstOut g = some s) :
    diInit g none =
      { nedge := (diWalk g (initNedge g) s).2, euler := (diWalk g (initNedge g) s).1 } := by
  unfold diInit
  rw [h]

theorem diInit_none_dead (g : Digraph) (h : firstOut g = none) :
    diInit g none = { nedge := (List.range g.numNodes).map (fun _ => []), euler := [] } := by
  unfold diInit
  rw [h]

theorem diRunF_nil (g : Digraph) (fuel : Nat) (st : DiState) (h : st.euler = []) :
    diRunF g fuel st = [] := by
  cases fuel with
  | zero => rfl
  | succ f => rw [diRunF_succ, h]

theorem closed_tour_of_chain (g : Digraph) (l : List Nat) (s0 : Nat)
    (hchain : chainFrom g s0 l) (hend : walkEnd g s0 l = s0) (hne : l ≠ []) :
    g.target (l.getLastD 0) = g.source (l.headD 0) := by
  cases l with
  | nil => exact absurd rfl hne
  | cons a t =>
    have h1 : g.source a = s0 := hchain.1
    have h2 : walkEnd g s0 (a :: t) = g.target ((a :: t).getLastD 0) :=
      walkEnd_lastTgt g (a :: t) s0 0 (by simp)
    rw [List.headD_cons, h1, ← hend, h2]

theorem firstOut_none_arcs_nil (g : Digraph) (hwf : g.wf) (hf : firstOut g = none) :
    g.arcs = [] := by
  rw [firstOut, List.find?_eq_none] at hf
  cases harc : g.arcs with
  | nil => rfl
  | cons p ps =>
    exfalso
    have hmem : p ∈ g.arcs := by rw [harc]; simp
    have hp1 : p.1 < g.numNodes := (hwf p hmem).1
    have h0 : (0 : Nat) ∈ outArcs g p.1 := by
      rw [mem_outArcs_iff]
      constructor
      · rw [harc]; simp
      · rw [Digraph.source, harc]
        rfl
    have hempty := hf p.1 (List.mem_range.mpr hp1)
    simp at hempty
    rw [hempty] at h0
    simp at h0

/-- C1.  For every well-formed digraph satisfying the Eulerian predicate
(directed form: in-degree = out-degree at every node and the symmetrized
graph connected) and for every admissible start argument, the sequence the
directed builder produces is a permutation of all arcs of the graph —
every arc appears exactly once — and, when nonempty, the target of its
final arc equals the source of its first arc (the tour is closed). -/
theorem diEulerIt_tour_complete_closed (g : Digraph) (start : Option Nat)
    (hwf : g.wf) (hstart : ∀ s, start = some s → s < g.numNodes)
    (heul : eulerianDi g = true) :
    (diTour g start).Perm (List.range g.arcs.length) ∧
    (diTour g start ≠ [] →
      g.target ((diTour g start).getLastD 0) = g.source ((diTour g start).headD 0)) := by
  have hparts : (∀ v, v < g.numNodes → countInArcs g v = countOutArcs g v) ∧
      connectedPairs g.numNodes g.arcs = true := by
    simp only [eulerianDi, Bool.and_eq_true, List.all_eq_true] at heul
    obtain ⟨h1, h2⟩ := heul
    exact ⟨fun v hv => by simpa using h1 v (List.mem_range.mpr hv), h2⟩
  obtain ⟨hdeg, hconn⟩ := hparts
  have key : ∀ s0, s0 < g.numNodes →
      (diRun g { nedge := (diWalk g (initNedge g) s0).2,
                 euler := (diWalk g (initNedge g) s0).1 }).Perm (List.range g.arcs.length) ∧
      chainFrom g s0 (diRun g { nedge := (diWalk g (initNedge g) s0).2,
                                euler := (diWalk g (initNedge g) s0).1 }) ∧
      walkEnd g s0 (diRun g { nedge := (diWalk g (initNedge g) s0).2,
                              euler := (diWalk g (initNedge g) s0).1 }) = s0 := by
    intro s0 hs0
    have hspec := diRunF_spec g hconn
      ((diWalk g (initNedge g) s0).1.length + sumLens (diWalk g (initNedge g) s0).2)
      { nedge := (diWalk g (initNedge g) s0).2, euler := (diWalk g (initNedge g) s0).1 }
      s0 [] (diInit_inv g hwf hdeg s0 hs0) (le_refl _)
    simpa using hspec
  rcases start with _ | s
  · cases hf : firstOut g with
    | none =>
      have htour : diTour g none = [] := by
        unfold diTour diRun
        rw [diInit_none_dead g hf]
        exact diRunF_nil g _ _ rfl
      have harcs := firstOut_none_arcs_nil g hwf hf
      rw [htour, harcs]
      exact ⟨by simp, fun h => absurd rfl h⟩
    | some s =>
      have hs : s < g.numNodes := by
        rw [firstOut] at hf
        exact List.mem_range.mp (List.mem_of_find?_eq_some hf)
      unfold diTour
      rw [diInit_none_found g s hf]
      obtain ⟨h1, h2, h3⟩ := key s hs
      exact ⟨h1, fun hne => closed_tour_of_chain g _ s h2 h3 hne⟩
  · have hs : s < g.numNodes := hstart s rfl
    unfold diTour
    rw [diInit_some]
    obtain ⟨h1, h2, h3⟩ := key s hs
    exact ⟨h1, fun hne => closed_tour_of_chain g _ s h2 h3 hne⟩

theorem uWalkSF_succ (g : UGraph) (f : Nat) (ne : List (List UArc)) (vis : List Bool)
    (s : Nat) :
    uWalkSF g (f + 1) ne vis s =
      match (skipAt vis ne s).getD s [] with
      | [] => ([], skipAt vis ne s, vis)
      | a :: rest =>
        (a :: (uWalkSF g f ((skipAt vis ne s).set s rest) (vis.set a.1 true) (g.target a)).1,
         (uWalkSF g f ((skipAt vis ne s).set s rest) (vis.set a.1 true) (g.target a)).2.1,
         (uWalkSF g f ((skipAt vis ne s).set s rest) (vis.set a.1 true) (g.target a)).2.2) := rfl

theorem uWalkCF_succ (g : UGraph) (f : Nat) (ne : List (List UArc)) (vis : List Bool)
    (s : Nat) :
    uWalkCF g (f + 1) ne vis s =
      match ne.getD s [] with
      | [] => ([], ne, vis)
      | a :: rest =>
        (a :: (uWalkCF g f (skipAt (vis.set a.1 true) (ne.set s rest) (g.target a))
                (vis.set a.1 true) (g.target a)).1,
         (uWalkCF g f (skipAt (vis.set a.1 true) (ne.set s rest) (g.target a))
                (vis.set a.1 true) (g.target a)).2.1,
         (uWalkCF g f (skipAt (vis.set a.1 true) (ne.set s rest) (g.target a))
                (vis.set a.1 true) (g.target a)).2.2) := rfl

theorem uRunF_succ (g : UGraph) (f : Nat) (st : UState) :
    uRunF g (f + 1) st =
      match st.euler with
      | [] => []
      | e :: _ => e :: uRunF g f (uStep g st) := rfl

theorem uRunF_nil (g : UGraph) (fuel : Nat) (st : UState) (h : st.euler = []) :
    uRunF g fuel st = [] := by
  cases fuel with
  | zero => rfl
  | succ f => rw [uRunF_succ, h]

theorem uStep_cons (g : UGraph) (st : UState) (e : UArc) (rest : List UArc)
    (heuler : st.euler = e :: rest) :
    uStep g st =
      { nedge := (uWalkS g st.nedge st.visited (g.target e)).2.1,
        visited := (uWalkS g st.nedge st.visited (g.target e)).2.2,
        euler := (uWalkS g st.nedge st.visited (g.target e)).1 ++ rest } := by
  unfold uStep
  rw [heuler]

theorem skipVisited_suffix (vis : List Bool) :
    ∀ (l : List UArc), skipVisited vis l <:+ l := by
  intro l
  induction l with
  | nil => exact List.suffix_refl _
  | cons a r ih =>
    by_cases h : vis.getD a.1 false
    · simp only [skipVisited, if_pos h]
      exact ih.trans (List.suffix_cons a r)
    · simp only [skipVisited, if_neg h]
      exact List.suffix_refl _

theorem skipVisited_head (vis : List Bool) :
    ∀ (l : List UArc) (a : UArc) (r : List UArc), skipVisited vis l = a :: r →
      vis.getD a.1 false = false := by
  intro l
  induction l with
  | nil => intro a r h; simp [skipVisited] at h
  | cons b t ih =>
    intro a r h
    by_cases hb : vis.getD b.1 false
    · rw [skipVisited, if_pos hb] at h
      exact ih a r h
    · rw [skipVisited, if_neg hb] at h
      obtain ⟨rfl, _⟩ := List.cons.injEq .. ▸ h
      simpa using hb

theorem skipAt_getD_self (vis : List Bool) (ne : List (List UArc)) (s : Nat)
    (hs : s < ne.length) :
    (skipAt vis ne s).getD s [] = skipVisited vis (ne.getD s []) :=
  getD_set_self ne s _ [] hs

theorem skipAt_eq_of_ge (vis : List Bool) (ne : List (List UArc)) (s : Nat)
    (hs : ne.length ≤ s) : skipAt vis ne s = ne :=
  List.set_eq_of_length_le hs

theorem flatten_set_subset {α : Type} :
    ∀ (ne : List (List α)) (s : Nat) (l' : List α),
      (∀ x ∈ l', x ∈ ne.getD s []) → ∀ x ∈ (ne.set s l').flatten, x ∈ ne.flatten := by
  intro ne
  induction ne with
  | nil => intro s l' _ x hx; simp at hx
  | cons c t ih =>
    intro s l' hsub x hx
    cases s with
    | zero =>
      simp only [List.set_cons_zero, List.flatten_cons, List.mem_append] at hx ⊢
      rcases hx with hx | hx
      · exact Or.inl (hsub x hx)
      · exact Or.inr hx
    | succ s' =>
      simp only [List.set_cons_succ, List.flatten_cons, List.mem_append] at hx ⊢
      rcases hx with hx | hx
      · exact Or.inl hx
      · exact Or.inr (ih s' l' (fun y hy => by simpa using hsub y hy) x hx)

theorem sumLens_set_le {α : Type} (ne : List (List α)) (s : Nat) (l' : List α)
    (hle : l'.length ≤ (ne.getD s []).length) :
    sumLens (ne.set s l') ≤ sumLens ne := by
  by_cases hs : s < ne.length
  · have := sumLens_set ne s l' hs
    omega
  · rw [List.set_eq_of_length_le (Nat.le_of_not_lt hs)]

theorem getD_set_true_mono (vis : List Bool) (i e : Nat)
    (h : vis.getD e false = true) : (vis.set i true).getD e false = true := by
  by_cases hie : i = e
  · subst hie
    by_cases hlt : i < vis.length
    · rw [getD_set_self _ _ _ _ hlt]
    · rw [List.set_eq_of_length_le (Nat.le_of_not_lt hlt)]
      exact h
  · rw [getD_set_ne _ _ _ _ _ hie]
    exact h

theorem getD_replicate_false (n i : Nat) :
    (List.replicate n false).getD i false = false := by
  rw [List.getD_eq_getElem?_getD]
  by_cases h : i < n
  · simp [List.getElem?_replicate, h]
  · rw [List.getElem?_eq_none (by simpa using Nat.le_of_not_lt h)]
    rfl

theorem uWalkSF_spec (g : UGraph) :
    ∀ (fuel : Nat) (ne : List (List UArc)) (vis : List Bool) (s : Nat),
      (∀ a ∈ ne.flatten, a.1 < vis.length) →
      ((∀ eId, vis.getD eId false = true →
          (uWalkSF g fuel ne vis s).2.2.getD eId false = true) ∧
       (uWalkSF g fuel ne vis s).2.2.length = vis.length ∧
       (∀ a ∈ (uWalkSF g fuel ne vis s).1,
         vis.getD a.1 false = false ∧ (uWalkSF g fuel ne vis s).2.2.getD a.1 false = true) ∧
       ((uWalkSF g fuel ne vis s).1.map Prod.fst).Nodup ∧
       (∀ a, a ∈ (uWalkSF g fuel ne vis s).1 ∨ a ∈ (uWalkSF g fuel ne vis s).2.1.flatten →
         a ∈ ne.flatten) ∧
       (uWalkSF g fuel ne vis s).1.length + sumLens (uWalkSF g fuel ne vis s).2.1 ≤
         sumLens ne) := by
  intro fuel
  induction fuel with
  | zero =>
    intro ne vis s _
    refine ⟨fun eId h => h, rfl, fun a ha => absurd ha (List.not_mem_nil a), List.nodup_nil,
      fun a ha => ha.resolve_left (List.not_mem_nil a), ?_⟩
    show ([] : List UArc).length + sumLens ne ≤ sumLens ne
    simp
  | succ f ih =>
    intro ne vis s H
    cases hskip : (skipAt vis ne s).getD s [] with
    | nil =>
      have hsub1 : ∀ x ∈ (skipAt vis ne s).flatten, x ∈ ne.flatten :=
        flatten_set_subset ne s _ (fun x hx => (skipVisited_suffix vis _).subset hx)
      have hsum1 : sumLens (skipAt vis ne s) ≤ sumLens ne :=
        sumLens_set_le ne s _ (skipVisited_suffix vis _).length_le
      rw [uWalkSF_succ, hskip]
      refine ⟨fun eId h => h, rfl, fun a ha => absurd ha (List.not_mem_nil a), List.nodup_nil,
        fun a ha => hsub1 a (ha.resolve_left (List.not_mem_nil a)), ?_⟩
      show ([] : List UArc).length + sumLens (skipAt vis ne s) ≤ sumLens ne
      simpa using hsum1
    | cons a rest =>
      have hlt : s < ne.length := by
        by_contra hge
        rw [skipAt_eq_of_ge vis ne s (Nat.le_of_not_lt hge),
          List.getD_eq_default _ _ (Nat.le_of_not_lt hge)] at hskip
        exact List.noConfusion hskip
      have hskip' : skipVisited vis (ne.getD s []) = a :: rest := by
        rw [← skipAt_getD_self vis ne s hlt]
        exact hskip
      have haf : vis.getD a.1 false = false := skipVisited_head vis _ a rest hskip'
      have hamem : a ∈ ne.getD s [] :=
        (skipVisited_suffix vis _).subset (by rw [hskip']; exact List.mem_cons_self a rest)
      have hane : a ∈ ne.flatten := mem_flatten_of_getD hamem
      have halt : a.1 < vis.length := H a hane
      have hsub1 : ∀ x ∈ (skipAt vis ne s).flatten, x ∈ ne.flatten :=
        flatten_set_subset ne s _ (fun x hx => (skipVisited_suffix vis _).subset hx)
      have hsub2 : ∀ x ∈ ((skipAt vis ne s).set s rest).flatten, x ∈ ne.flatten := by
        intro x hx
        refine hsub1 x (flatten_set_subset (skipAt vis ne s) s rest ?_ x hx)
        intro y hy
        rw [skipAt_getD_self vis ne s hlt, hskip']
        exact List.mem_cons_of_mem a hy
      have H' : ∀ x ∈ ((skipAt vis ne s).set s rest).flatten,
          x.1 < (vis.set a.1 true).length := by
        intro x hx
        rw [List.length_set]
        exact H x (hsub2 x hx)
      obtain ⟨ra, rb, rc, rd, re, rf⟩ :=
        ih ((skipAt vis ne s).set s rest) (vis.set a.1 true) (g.target a) H'
      have hvis'a : (vis.set a.1 true).getD a.1 false = true :=
        getD_set_self vis a.1 true false halt
      have c1 : ∀ eId, vis.getD eId false = true →
          (uWalkSF g f ((skipAt vis ne s).set s rest) (vis.set a.1 true)
            (g.target a)).2.2.getD eId false = true :=
        fun eId he => ra eId (getD_set_true_mono vis a.1 eId he)
      have c2 : (uWalkSF g f ((skipAt vis ne s).set s rest) (vis.set a.1 true)
          (g.target a)).2.2.length = vis.length := by
        rw [rb, List.length_set]
      have c3 : ∀ x ∈ a :: (uWalkSF g f ((skipAt vis ne s).set s rest) (vis.set a.1 true)
          (g.target a)).1,
          vis.getD x.1 false = false ∧
          (uWalkSF g f ((skipAt vis ne s).set s rest) (vis.set a.1 true)
            (g.target a)).2.2.getD x.1 false = true := by
        intro x hx
        rcases List.mem_cons.mp hx with rfl | hx
        · exact ⟨haf, ra x.1 hvis'a⟩
        · obtain ⟨h1, h2⟩ := rc x hx
          refine ⟨?_, h2⟩
          cases hval : vis.getD x.1 false
          · rfl
          · rw [getD_set_true_mono vis a.1 x.1 hval] at h1
            exact h1
      have c4 : ((a :: (uWalkSF g f ((skipAt vis ne s).set s rest) (vis.set a.1 true)
          (g.target a)).1).map Prod.fst).Nodup := by
        rw [List.map_cons, List.nodup_cons]
        refine ⟨?_, rd⟩
        intro hmem
        rw [List.mem_map] at hmem
        obtain ⟨b, hb, hfst⟩ := hmem
        have hbf := (rc b hb).1
        rw [hfst, hvis'a] at hbf
        exact absurd hbf (by simp)
      have c5 : ∀ x, x ∈ a :: (uWalkSF g f ((skipAt vis ne s).set s rest) (vis.set a.1 true)
          (g.target a)).1 ∨
          x ∈ (uWalkSF g f ((skipAt vis ne s).set s rest) (vis.set a.1 true)
            (g.target a)).2.1.flatten → x ∈ ne.flatten := by
        intro x hx
        rcases hx with hx | hx
        · rcases List.mem_cons.mp hx with rfl | hx
          · exact hane
          · exact hsub2 x (re x (Or.inl hx))
        · exact hsub2 x (re x (Or.inr hx))
      have c6 : (a :: (uWalkSF g f ((skipAt vis ne s).set s rest) (vis.set a.1 true)
          (g.target a)).1).length +
          sumLens (uWalkSF g f ((skipAt vis ne s).set s rest) (vis.set a.1 true)
            (g.target a)).2.1 ≤ sumLens ne := by
        have hlt1 : s < (skipAt vis ne s).length := by
          rw [skipAt, List.length_set]
          exact hlt
        have hset := sumLens_set (skipAt vis ne s) s rest hlt1
        rw [skipAt_getD_self vis ne s hlt, hskip'] at hset
        have hle1 : sumLens (skipAt vis ne s) ≤ sumLens ne :=
          sumLens_set_le ne s _ (skipVisited_suffix vis _).length_le
        simp only [List.length_cons] at hset ⊢
        omega
      rw [uWalkSF_succ, hskip]
      exact ⟨c1, c2, c3, c4, c5, c6⟩

theorem uWalkCF_spec (g : UGraph) :
    ∀ (fuel : Nat) (ne : List (List UArc)) (vis : List Bool) (s : Nat),
      (∀ a ∈ ne.flatten, a.1 < vis.length) →
      (match ne.getD s [] with
       | [] => True
       | a :: _ => vis.getD a.1 false = false) →
      ((∀ eId, vis.getD eId false = true →
          (uWalkCF g fuel ne vis s).2.2.getD eId false = true) ∧
       (uWalkCF g fuel ne vis s).2.2.length = vis.length ∧
       (∀ a ∈ (uWalkCF g fuel ne vis s).1,
         vis.getD a.1 false = false ∧ (uWalkCF g fuel ne vis s).2.2.getD a.1 false = true) ∧
       ((uWalkCF g fuel ne vis s).1.map Prod.fst).Nodup ∧
       (∀ a, a ∈ (uWalkCF g fuel ne vis s).1 ∨ a ∈ (uWalkCF g fuel ne vis s).2.1.flatten →
         a ∈ ne.flatten) ∧
       (uWalkCF g fuel ne vis s).1.length + sumLens (uWalkCF g fuel ne vis s).2.1 ≤
         sumLens ne) := by
  intro fuel
  induction fuel with
  | zero =>
    intro ne vis s _ _
    refine ⟨fun eId h => h, rfl, fun a ha => absurd ha (List.not_mem_nil a), List.nodup_nil,
      fun a ha => ha.resolve_left (List.not_mem_nil a), ?_⟩
    show ([] : List UArc).length + sumLens ne ≤ sumLens ne
    simp
  | succ f ih =>
    intro ne vis s H hhead
    cases hc : ne.getD s [] with
    | nil =>
      rw [uWalkCF_succ, hc]
      refine ⟨fun eId h => h, rfl, fun a ha => absurd ha (List.not_mem_nil a), List.nodup_nil,
        fun a ha => ha.resolve_left (List.not_mem_nil a), ?_⟩
      show ([] : List UArc).length + sumLens ne ≤ sumLens ne
      simp
    | cons a rest =>
      have haf : vis.getD a.1 false = false := by
        rw [hc] at hhead
        exact hhead
      have hlt : s < ne.length := getD_lt_of_ne_nil (by rw [hc]; simp)
      have hamem : a ∈ ne.getD s [] := by rw [hc]; exact List.mem_cons_self a rest
      have hane : a ∈ ne.flatten := mem_flatten_of_getD hamem
      have halt : a.1 < vis.length := H a hane
      have hsub1 : ∀ x ∈ (ne.set s rest).flatten, x ∈ ne.flatten :=
        flatten_set_subset ne s rest
          (fun x hx => by rw [hc]; exact List.mem_cons_of_mem a hx)
      have hsub2 : ∀ x ∈ (skipAt (vis.set a.1 true) (ne.set s rest) (g.target a)).flatten,
          x ∈ ne.flatten := by
        intro x hx
        refine hsub1 x (flatten_set_subset (ne.set s rest) (g.target a) _ ?_ x hx)
        intro y hy
        exact (skipVisited_suffix (vis.set a.1 true) _).subset hy
      have H' : ∀ x ∈ (skipAt (vis.set a.1 true) (ne.set s rest) (g.target a)).flatten,
          x.1 < (vis.set a.1 true).length := by
        intro x hx
        rw [List.length_set]
        exact H x (hsub2 x hx)
      have hhead' : (match (skipAt (vis.set a.1 true) (ne.set s rest)
          (g.target a)).getD (g.target a) [] with
        | [] => True
        | b :: _ => (vis.set a.1 true).getD b.1 false = false) := by
        cases hres : (skipAt (vis.set a.1 true) (ne.set s rest)
            (g.target a)).getD (g.target a) [] with
        | nil => trivial
        | cons b br =>
          have hlt2 : g.target a < (ne.set s rest).length := by
            by_contra hge
            rw [skipAt_eq_of_ge _ _ _ (Nat.le_of_not_lt hge),
              List.getD_eq_default _ _ (Nat.le_of_not_lt hge)] at hres
            exact List.noConfusion hres
          rw [skipAt_getD_self _ _ _ hlt2] at hres
          exact skipVisited_head _ _ b br hres
      obtain ⟨ra, rb, rc, rd, re, rf⟩ :=
        ih (skipAt (vis.set a.1 true) (ne.set s rest) (g.target a)) (vis.set a.1 true)
          (g.target a) H' hhead'
      have hvis'a : (vis.set a.1 true).getD a.1 false = true :=
        getD_set_self vis a.1 true false halt
      have c1 : ∀ eId, vis.getD eId false = true →
          (uWalkCF g f (skipAt (vis.set a.1 true) (ne.set s rest) (g.target a))
            (vis.set a.1 true) (g.target a)).2.2.getD eId false = true :=
        fun eId he => ra eId (getD_set_true_mono vis a.1 eId he)
      have c2 : (uWalkCF g f (skipAt (vis.set a.1 true) (ne.set s rest) (g.target a))
          (vis.set a.1 true) (g.target a)).2.2.length = vis.length := by
        rw [rb, List.length_set]
      have c3 : ∀ x ∈ a :: (uWalkCF g f (skipAt (vis.set a.1 true) (ne.set s rest)
          (g.target a)) (vis.set a.1 true) (g.target a)).1,
          vis.getD x.1 false = false ∧
          (uWalkCF g f (skipAt (vis.set a.1 true) (ne.set s rest) (g.target a))
            (vis.set a.1 true) (g.target a)).2.2.getD x.1 false = true := by
        intro x hx
        rcases List.mem_cons.mp hx with rfl | hx
        · exact ⟨haf, ra x.1 hvis'a⟩
        · obtain ⟨h1, h2⟩ := rc x hx
          refine ⟨?_, h2⟩
          cases hval : vis.getD x.1 false
          · rfl
          · rw [getD_set_true_mono vis a.1 x.1 hval] at h1
            exact h1
      have c4 : ((a :: (uWalkCF g f (skipAt (vis.set a.1 true) (ne.set s rest) (g.target a))
          (vis.set a.1 true) (g.target a)).1).map Prod.fst).Nodup := by
        rw [List.map_cons, List.nodup_cons]
        refine ⟨?_, rd⟩
        intro hmem
        rw [List.mem_map] at hmem
        obtain ⟨b, hb, hfst⟩ := hmem
        have hbf := (rc b hb).1
        rw [hfst, hvis'a] at hbf
        exact absurd hbf (by simp)
      have c5 : ∀ x, x ∈ a :: (uWalkCF g f (skipAt (vis.set a.1 true) (ne.set s rest)
          (g.target a)) (vis.set a.1 true) (g.target a)).1 ∨
          x ∈ (uWalkCF g f (skipAt (vis.set a.1 true) (ne.set s rest) (g.target a))
            (vis.set a.1 true) (g.target a)).2.1.flatten → x ∈ ne.flatten := by
        intro x hx
        rcases hx with hx | hx
        · rcases List.mem_cons.mp hx with rfl | hx
          · exact hane
          · exact hsub2 x (re x (Or.inl hx))
        · exact hsub2 x (re x (Or.inr hx))
      have c6 : (a :: (uWalkCF g f (skipAt (vis.set a.1 true) (ne.set s rest) (g.target a))
          (vis.set a.1 true) (g.target a)).1).length +
          sumLens (uWalkCF g f (skipAt (vis.set a.1 true) (ne.set s rest) (g.target a))
            (vis.set a.1 true) (g.target a)).2.1 ≤ sumLens ne := by
        have hset := sumLens_set ne s rest hlt
        rw [hc] at hset
        have hle1 : sumLens (skipAt (vis.set a.1 true) (ne.set s rest) (g.target a)) ≤
            sumLens (ne.set s rest) :=
          sumLens_set_le (ne.set s rest) (g.target a) _
            (skipVisited_suffix (vis.set a.1 true) _).length_le
        simp only [List.length_cons] at hset ⊢
        omega
      rw [uWalkCF_succ, hc]
      exact ⟨c1, c2, c3, c4, c5, c6⟩

theorem uInit_some (g : UGraph) (s : Nat) :
    uInit g (some s) =
      { nedge := (uWalkCF g (sumLens (uInitNedge g)) (uInitNedge g) (uInitVis g) s).2.1,
        visited := (uWalkCF g (sumLens (uInitNedge g)) (uInitNedge g) (uInitVis g) s).2.2,
        euler := (uWalkCF g (sumLens (uInitNedge g)) (uInitNedge g) (uInitVis g) s).1 } := rfl

theorem uInit_none_found (g : UGraph) (s : Nat) (h : uFirstOut g = some s) :
    uInit g none =
      { nedge := (uWalkCF g (sumLens (uInitNedge g)) (uInitNedge g) (uInitVis g) s).2.1,
        visited := (uWalkCF g (sumLens (uInitNedge g)) (uInitNedge g) (uInitVis g) s).2.2,
        euler := (uWalkCF g (sumLens (uInitNedge g)) (uInitNedge g) (uInitVis g) s).1 } := by
  unfold uInit
  rw [h]

theorem uInit_none_dead (g : UGraph) (h : uFirstOut g = none) :
    uInit g none =
      { nedge := (List.range g.numNodes).map (fun _ => []),
        visited := uInitVis g, euler := [] } := by
  unfold uInit
  rw [h]

theorem const_nil_flatten {α : Type} (n : Nat) :
    ((List.range n).map (fun _ => ([] : List α))).flatten = [] := by
  rw [List.flatten_eq_nil_iff]
  intro l hl
  rw [List.mem_map] at hl
  obtain ⟨_, _, h⟩ := hl
  exact h.symm

theorem mem_uOutArcs_fst (g : UGraph) (v : Nat) (a : UArc) (h : a ∈ uOutArcs g v) :
    a.1 < g.edges.length := by
  simp only [uOutArcs, List.mem_flatMap, List.mem_range, List.mem_append] at h
  obtain ⟨e, he, hmem⟩ := h
  have hae : a.1 = e := by
    rcases hmem with h | h <;> split_ifs at h <;> simp at h <;> simp [h]
  omega

theorem uInitVis_length (g : UGraph) : (uInitVis g).length = g.edges.length :=
  List.length_replicate _ _

theorem uInitVis_getD (g : UGraph) (i : Nat) : (uInitVis g).getD i false = false :=
  getD_replicate_false _ _

theorem uInit_inv (g : UGraph) (start : Option Nat) : UInv g (uInit g start) := by
  have key : ∀ s : Nat, UInv g
      { nedge := (uWalkCF g (sumLens (uInitNedge g)) (uInitNedge g) (uInitVis g) s).2.1,
        visited := (uWalkCF g (sumLens (uInitNedge g)) (uInitNedge g) (uInitVis g) s).2.2,
        euler := (uWalkCF g (sumLens (uInitNedge g)) (uInitNedge g) (uInitVis g) s).1 } := by
    intro s
    have H0 : ∀ a ∈ (uInitNedge g).flatten, a.1 < (uInitVis g).length := by
      intro a ha
      rw [List.mem_flatten] at ha
      obtain ⟨l, hl, hal⟩ := ha
      rw [uInitNedge, List.mem_map] at hl
      obtain ⟨v, _, hv⟩ := hl
      rw [← hv] at hal
      rw [uInitVis_length]
      exact mem_uOutArcs_fst g v a hal
    have hhead0 : (match (uInitNedge g).getD s [] with
        | [] => True
        | a :: _ => (uInitVis g).getD a.1 false = false) := by
      cases hc : (uInitNedge g).getD s [] with
      | nil => trivial
      | cons b br => exact uInitVis_getD g b.1
    obtain ⟨_, rb, rc, rd, re, _⟩ :=
      uWalkCF_spec g (sumLens (uInitNedge g)) (uInitNedge g) (uInitVis g) s H0 hhead0
    refine ⟨rd, fun a ha => (rc a ha).2, ?_⟩
    intro a ha
    rw [rb]
    exact H0 a (re a (Or.inr ha))
  rcases start with _ | s
  · cases hf : uFirstOut g with
    | none =>
      rw [uInit_none_dead g hf]
      refine ⟨List.nodup_nil, fun a ha => absurd ha (List.not_mem_nil a), ?_⟩
      intro a ha
      rw [const_nil_flatten] at ha
      exact absurd ha (List.not_mem_nil a)
    | some s =>
      rw [uInit_none_found g s hf]
      exact key s
  · rw [uInit_some]
    exact key s

theorem uRunF_unique (g : UGraph) :
    ∀ (fuel : Nat) (st : UState), UInv g st →
      ((uRunF g fuel st).map Prod.fst).Nodup ∧
      (∀ b ∈ uRunF g fuel st, b ∈ st.euler ∨ st.visited.getD b.1 false = false) := by
  intro fuel
  induction fuel with
  | zero =>
    intro st _
    exact ⟨List.nodup_nil, fun b hb => absurd hb (List.not_mem_nil b)⟩
  | succ f ih =>
    intro st hInv
    obtain ⟨hnd, hvis, hlen⟩ := hInv
    cases heuler : st.euler with
    | nil =>
      rw [uRunF_succ, heuler]
      exact ⟨List.nodup_nil, fun b hb => absurd hb (List.not_mem_nil b)⟩
    | cons e rest =>
      obtain ⟨ra, rb, rc, rd, re, _⟩ :=
        uWalkSF_spec g (sumLens st.nedge) st.nedge st.visited (g.target e) hlen
      have ra' : ∀ eId, st.visited.getD eId false = true →
          (uWalkS g st.nedge st.visited (g.target e)).2.2.getD eId false = true := ra
      have rb' : (uWalkS g st.nedge st.visited (g.target e)).2.2.length =
          st.visited.length := rb
      have rc' : ∀ a ∈ (uWalkS g st.nedge st.visited (g.target e)).1,
          st.visited.getD a.1 false = false ∧
          (uWalkS g st.nedge st.visited (g.target e)).2.2.getD a.1 false = true := rc
      have rd' : ((uWalkS g st.nedge st.visited (g.target e)).1.map Prod.fst).Nodup := rd
      have re' : ∀ a, a ∈ (uWalkS g st.nedge st.visited (g.target e)).1 ∨
          a ∈ (uWalkS g st.nedge st.visited (g.target e)).2.1.flatten →
          a ∈ st.nedge.flatten := re
      have hstep := uStep_cons g st e rest heuler
      have hndr : ((e :: rest).map Prod.fst).Nodup := by rw [← heuler]; exact hnd
      have hevis : st.visited.getD e.1 false = true := hvis e (by rw [heuler]; simp)
      have hInv' : UInv g (uStep g st) := by
        rw [hstep]
        refine ⟨?_, ?_, ?_⟩
        · rw [List.map_append, List.nodup_append]
          refine ⟨rd', ?_, ?_⟩
          · have h2 := hndr
            rw [List.map_cons, List.nodup_cons] at h2
            exact h2.2
          · intro x hx1 hx2
            rw [List.mem_map] at hx1 hx2
            obtain ⟨b, hb, hbx⟩ := hx1
            obtain ⟨c, hc2, hcx⟩ := hx2
            have hbf := (rc' b hb).1
            have hcv : st.visited.getD c.1 false = true :=
              hvis c (by rw [heuler]; exact List.mem_cons_of_mem e hc2)
            rw [hbx] at hbf
            rw [hcx] at hcv
            rw [hbf] at hcv
            simp at hcv
        · intro a ha
          rcases List.mem_append.mp ha with h | h
          · exact (rc' a h).2
          · exact ra' a.1 (hvis a (by rw [heuler]; exact List.mem_cons_of_mem e h))
        · intro a ha
          rw [rb']
          exact hlen a (re' a (Or.inr ha))
      obtain ⟨ihnd, ihsub⟩ := ih (uStep g st) hInv'
      constructor
      · rw [uRunF_succ, heuler, List.map_cons, List.nodup_cons]
        refine ⟨?_, ihnd⟩
        intro hmem
        rw [List.mem_map] at hmem
        obtain ⟨b, hb, hbe⟩ := hmem
        rcases ihsub b hb with hbeul | hbfalse
        · rw [hstep] at hbeul
          rcases List.mem_append.mp hbeul with h | h
          · have hf0 := (rc' b h).1
            rw [hbe] at hf0
            rw [hf0] at hevis
            simp at hevis
          · have h2 := hndr
            rw [List.map_cons, List.nodup_cons] at h2
            exact h2.1 (hbe ▸ List.mem_map_of_mem Prod.fst h)
        · have hetrue : (uWalkS g st.nedge st.visited (g.target e)).2.2.getD e.1 false =
              true := ra' e.1 hevis
          have h2 : (uWalkS g st.nedge st.visited (g.target e)).2.2.getD b.1 false =
              false := by
            rw [hstep] at hbfalse
            exact hbfalse
          rw [hbe, hetrue] at h2
          simp at h2
      · rw [uRunF_succ, heuler]
        intro b hb
        rcases List.mem_cons.mp hb with rfl | hb
        · exact Or.inl (List.mem_cons_self _ _)
        · rcases ihsub b hb with hbeul | hbfalse
          · rw [hstep] at hbeul
            rcases List.mem_append.mp hbeul with h | h
            · exact Or.inr (rc' b h).1
            · exact Or.inl (List.mem_cons_of_mem e h)
          · right
            cases hval : st.visited.getD b.1 false
            · rfl
            · have h3 := ra' b.1 hval
              have h2 : (uWalkS g st.nedge st.visited (g.target e)).2.2.getD b.1 false =
                  false := by
                rw [hstep] at hbfalse
                exact hbfalse
              rw [h3] at h2
              exact h2

theorem perm_glue2 {α : Type} (T R N' N : List α) (hw : (T ++ N').Perm N) :
    ((T ++ R) ++ N').Perm (R ++ N) := by
  rw [← Multiset.coe_eq_coe] at hw ⊢
  simp only [← Multiset.coe_add] at hw ⊢
  rw [← hw]
  abel

theorem diRunF_subset (g : Digraph) :
    ∀ (fuel : Nat) (st : DiState), ∀ a ∈ diRunF g fuel st,
      a ∈ st.euler ++ st.nedge.flatten := by
  intro fuel
  induction fuel with
  | zero => intro st a ha; exact absurd ha (List.not_mem_nil a)
  | succ f ih =>
    intro st a ha
    cases heuler : st.euler with
    | nil =>
      rw [diRunF_succ, heuler] at ha
      exact absurd ha (List.not_mem_nil a)
    | cons e rest =>
      rw [diRunF_succ, heuler] at ha
      rcases List.mem_cons.mp ha with rfl | ha2
      · simp
      · have h1 := ih (diStep g st) a ha2
        rw [diStep_cons g st e rest heuler] at h1
        have hwperm : ((diWalk g st.nedge (g.target e)).1 ++
            (diWalk g st.nedge (g.target e)).2.flatten).Perm st.nedge.flatten :=
          diWalkF_perm g (sumLens st.nedge) st.nedge (g.target e)
        have h2 := (perm_glue2 _ rest _ _ hwperm).mem_iff.mp h1
        rcases List.mem_append.mp h2 with h | h
        · exact List.mem_append.mpr (Or.inl (List.mem_cons_of_mem e h))
        · exact List.mem_append.mpr (Or.inr h)

theorem diRunF_nodup (g : Digraph) :
    ∀ (fuel : Nat) (st : DiState),
      (st.euler ++ st.nedge.flatten).Nodup → (diRunF g fuel st).Nodup := by
  intro fuel
  induction fuel with
  | zero => intro st _; exact List.nodup_nil
  | succ f ih =>
    intro st hnd
    cases heuler : st.euler with
    | nil => rw [diRunF_succ, heuler]; exact List.nodup_nil
    | cons e rest =>
      rw [heuler] at hnd
      have hwperm : ((diWalk g st.nedge (g.target e)).1 ++
          (diWalk g st.nedge (g.target e)).2.flatten).Perm st.nedge.flatten :=
        diWalkF_perm g (sumLens st.nedge) st.nedge (g.target e)
      have hglue := perm_glue2 (diWalk g st.nedge (g.target e)).1 rest
        (diWalk g st.nedge (g.target e)).2.flatten st.nedge.flatten hwperm
      have hnd2 : (rest ++ st.nedge.flatten).Nodup := by
        have h0 : ((e :: rest) ++ st.nedge.flatten).Nodup := hnd
        rw [List.cons_append, List.nodup_cons] at h0
        exact h0.2
      have hnde : e ∉ rest ++ st.nedge.flatten := by
        have h0 : ((e :: rest) ++ st.nedge.flatten).Nodup := hnd
        rw [List.cons_append, List.nodup_cons] at h0
        exact h0.1
      have hnd' : ((diStep g st).euler ++ (diStep g st).nedge.flatten).Nodup := by
        rw [diStep_cons g st e rest heuler]
        exact hglue.symm.nodup hnd2
      rw [diRunF_succ, heuler, List.nodup_cons]
      refine ⟨?_, ih (diStep g st) hnd'⟩
      intro hmem
      have h1 := diRunF_subset g f (diStep g st) e hmem
      rw [diStep_cons g st e rest heuler] at h1
      exact hnde (hglue.mem_iff.mp h1)

theorem initNedge_flatten_nodup (g : Digraph) : (initNedge g).flatten.Nodup := by
  rw [List.nodup_flatten]
  constructor
  · intro l hl
    rw [initNedge, List.mem_map] at hl
    obtain ⟨v, _, hv⟩ := hl
    rw [← hv]
    exact (List.nodup_range _).filter _
  · rw [initNedge, List.pairwise_map]
    refine List.Pairwise.imp ?_ (List.nodup_range g.numNodes)
    intro u v huv x hxu hxv
    rw [mem_outArcs_iff] at hxu hxv
    exact huv (hxu.2.symm.trans hxv.2)

/-- C2.  For every digraph and every undirected graph, and every choice of
start argument, the sequence emitted by the directed builder contains no
arc twice, and the sequence emitted by the undirected builder contains no
underlying edge twice — uniqueness holds whether or not the graph is
Eulerian. -/
theorem tours_no_duplicates (g : Digraph) (ug : UGraph) (s1 s2 : Option Nat) :
    (diTour g s1).Nodup ∧ ((uTour ug s2).map Prod.fst).Nodup := by
  constructor
  · have hinit : ((diInit g s1).euler ++ (diInit g s1).nedge.flatten).Nodup := by
      have hwalk : ∀ s : Nat,
          (({ nedge := (diWalk g (initNedge g) s).2,
              euler := (diWalk g (initNedge g) s).1 } : DiState).euler ++
            ({ nedge := (diWalk g (initNedge g) s).2,
               euler := (diWalk g (initNedge g) s).1 } : DiState).nedge.flatten).Nodup := by
        intro s
        have hwperm : ((diWalk g (initNedge g) s).1 ++
            (diWalk g (initNedge g) s).2.flatten).Perm (initNedge g).flatten :=
          diWalkF_perm g (sumLens (initNedge g)) (initNedge g) s
        exact hwperm.symm.nodup (initNedge_flatten_nodup g)
      rcases s1 with _ | s
      · cases hf : firstOut g with
        | none =>
          rw [diInit_none_dead g hf]
          show (([] : List Nat) ++
            ((List.range g.numNodes).map (fun _ => [])).flatten).Nodup
          rw [List.nil_append, const_nil_flatten]
          exact List.nodup_nil
        | some s =>
          rw [diInit_none_found g s hf]
          exact hwalk s
      · rw [diInit_some]
        exact hwalk s
    exact diRunF_nodup g _ (diInit g s1) hinit
  · exact (uRunF_unique ug _ (uInit ug s2) (uInit_inv ug s2)).1

theorem diWalkF_stuck (g : Digraph) (fuel : Nat) (ne : List (List Nat)) (s : Nat)
    (h : ne.getD s [] = []) : diWalkF g fuel ne s = ([], ne) := by
  cases fuel with
  | zero => rfl
  | succ f => rw [diWalkF_succ, h]

theorem uWalkCF_stuck (g : UGraph) (fuel : Nat) (ne : List (List UArc)) (vis : List Bool)
    (s : Nat) (h : ne.getD s [] = []) : uWalkCF g fuel ne vis s = ([], ne, vis) := by
  cases fuel with
  | zero => rfl
  | succ f => rw [uWalkCF_succ, h]

theorem uInitNedge_length (g : UGraph) : (uInitNedge g).length = g.numNodes := by
  simp [uInitNedge]

theorem uInitNedge_getD (g : UGraph) {v : Nat} (hv : v < g.numNodes) :
    (uInitNedge g).getD v [] = uOutArcs g v := by
  rw [uInitNedge, List.getD_eq_getElem?_getD, List.getElem?_map, List.getElem?_range hv]
  rfl

theorem uInitNedge_getD_ge (g : UGraph) {v : Nat} (hv : g.numNodes ≤ v) :
    (uInitNedge g).getD v [] = [] :=
  List.getD_eq_default _ _ (by rw [uInitNedge_length]; exact hv)

theorem diTour_eq (g : Digraph) (start : Option Nat) :
    diTour g start = diRun g (diInit g start) := rfl

theorem uTour_eq (g : UGraph) (start : Option Nat) :
    uTour g start = uRun g (uInit g start) := rfl

theorem diRun_cons (g : Digraph) (st : DiState) (e : Nat) (rest : List Nat)
    (h : st.euler = e :: rest) : ∃ l, diRun g st = e :: l := by
  obtain ⟨f, hf2⟩ : ∃ f, st.euler.length + sumLens st.nedge = f + 1 :=
    ⟨rest.length + sumLens st.nedge, by rw [h, List.length_cons]; omega⟩
  show ∃ l, diRunF g (st.euler.length + sumLens st.nedge) st = e :: l
  rw [hf2, diRunF_succ, h]
  exact ⟨_, rfl⟩

theorem diArc_cons (st : DiState) (e : Nat) (rest : List Nat) (h : st.euler = e :: rest) :
    diArc st = some e := by
  unfold diArc
  rw [h]

theorem uArc_cons (st : UState) (e : UArc) (rest : List UArc) (h : st.euler = e :: rest) :
    uArc st = some e := by
  unfold uArc
  rw [h]

theorem uEdge_cons (st : UState) (e : UArc) (rest : List UArc) (h : st.euler = e :: rest) :
    uEdge st = some e.1 := by
  unfold uEdge
  rw [h]

/-- C3 counterexample: in `deadStartG`, node `0` is a valid node with no
outgoing arc and node `1` has the single arc `1 → 0`.  Constructed with
explicit start node `0`, the builder produces the empty sequence — no
fallback scan to node `1` happens, although the claim demands one (the
default-start builder, which does scan, produces the nonempty tour
`[0]`). -/
theorem deadStart_no_fallback_cex :
    deadStartG.numNodes = 2 ∧ outArcs deadStartG 0 = [] ∧ outArcs deadStartG 1 = [0] ∧
    diTour deadStartG (some 0) = [] ∧ diTour deadStartG none = [0] := by decide

/-- C3 amended.  The fallback scan for the first node with an outgoing arc
happens only when no start node is supplied: then the tour starts at the
scanned node (its first arc leaves that node) and is empty only when no
node has an outgoing arc.  When a start node is supplied explicitly and it
has no outgoing arcs, the produced sequence is simply empty — no fallback
scan occurs, in either builder. -/
theorem start_selection_amended (g : Digraph) (ug : UGraph) (s su : Nat)
    (hs : outArcs g s = []) (hsu : uOutArcs ug su = []) :
    diTour g (some s) = [] ∧ uTour ug (some su) = [] ∧
    (firstOut g = none → diTour g none = []) ∧
    (∀ v, firstOut g = some v →
      diTour g none ≠ [] ∧ g.source ((diTour g none).headD 0) = v) := by
  refine ⟨?_, ?_, ?_, ?_⟩
  · have hempty : (initNedge g).getD s [] = [] := by
      by_cases hv : s < g.numNodes
      · rw [initNedge_getD g hv]; exact hs
      · exact initNedge_getD_ge g (Nat.le_of_not_lt hv)
    have heuler : (diInit g (some s)).euler = [] := by
      rw [diInit_some]
      show (diWalkF g (sumLens (initNedge g)) (initNedge g) s).1 = []
      rw [diWalkF_stuck g _ _ s hempty]
    exact diRunF_nil g _ _ heuler
  · have hempty : (uInitNedge ug).getD su [] = [] := by
      by_cases hv : su < ug.numNodes
      · rw [uInitNedge_getD ug hv]; exact hsu
      · exact uInitNedge_getD_ge ug (Nat.le_of_not_lt hv)
    have heuler : (uInit ug (some su)).euler = [] := by
      rw [uInit_some]
      show (uWalkCF ug (sumLens (uInitNedge ug)) (uInitNedge ug) (uInitVis ug) su).1 = []
      rw [uWalkCF_stuck ug _ _ _ su hempty]
    exact uRunF_nil ug _ _ heuler
  · intro hf
    have heuler : (diInit g none).euler = [] := by rw [diInit_none_dead g hf]
    exact diRunF_nil g _ _ heuler
  · intro v hf
    have hv : v < g.numNodes := by
      rw [firstOut] at hf
      exact List.mem_range.mp (List.mem_of_find?_eq_some hf)
    have hne : outArcs g v ≠ [] := by
      intro hnil
      rw [firstOut] at hf
      have h1 := List.find?_some hf
      rw [hnil] at h1
      simp at h1
    obtain ⟨a, rest, hav⟩ : ∃ a rest, outArcs g v = a :: rest := by
      cases hout : outArcs g v with
      | nil => exact absurd hout hne
      | cons a r => exact ⟨a, r, rfl⟩
    have hsource : g.source a = v := by
      have hmem : a ∈ outArcs g v := by rw [hav]; simp
      exact ((mem_outArcs_iff g v a).mp hmem).2
    have hgetD : (initNedge g).getD v [] = a :: rest := by rw [initNedge_getD g hv, hav]
    obtain ⟨f, hfee⟩ : ∃ f, sumLens (initNedge g) = f + 1 := by
      refine ⟨sumLens (initNedge g) - 1, ?_⟩
      have hsum : sumLens (initNedge g) ≠ 0 := by
        intro h0
        have h1 := sumLens_zero_getD h0 v
        rw [hgetD] at h1
        exact List.noConfusion h1
      omega
    have ht : ∃ t, (diWalkF g (sumLens (initNedge g)) (initNedge g) v).1 = a :: t := by
      rw [hfee, diWalkF_succ, hgetD]
      exact ⟨_, rfl⟩
    obtain ⟨t, ht⟩ := ht
    have heuler : (diInit g none).euler = a :: t := by
      rw [diInit_none_found g v hf]
      exact ht
    obtain ⟨l, hl⟩ := diRun_cons g (diInit g none) a t heuler
    rw [diTour_eq, hl]
    exact ⟨by simp, by rw [List.headD_cons]; exact hsource⟩

/-- Witness for the amended C3, instantiated at `deadStartG` with the dead
start node `0`; the scan (used only for the default start) finds node `1`
and the default tour indeed starts there. -/
theorem start_selection_amended_witness :
    outArcs deadStartG 0 = [] ∧ diTour deadStartG (some 0) = [] ∧
    uOutArcs { numNodes := 2, edges := [(1, 1)] } 0 = [] ∧
    uTour { numNodes := 2, edges := [(1, 1)] } (some 0) = [] ∧
    diTour deadStartG none ≠ [] ∧
    deadStartG.source ((diTour deadStartG none).headD 0) = 1 := by
  have h := start_selection_amended deadStartG { numNodes := 2, edges := [(1, 1)] } 0 0
    (by decide) (by decide)
  exact ⟨by decide, h.1, by decide, h.2.1, (h.2.2.2 1 (by decide)).1, (h.2.2.2 1 (by decide)).2⟩

/-- C4.  The Eulerian predicate of the undirected overload returns true iff
every node has an even incident-arc count and the graph is connected (as
computed by the Connectivity collaborator); the directed overload returns
true iff in-degree equals out-degree at every node and the symmetrized
graph (the `Undirector` view, whose adjacency is the arc list read
symmetrically) is connected. -/
theorem eulerian_iff_characterization :
    (∀ g : UGraph, eulerian g = true ↔
      ((∀ v, v < g.numNodes → Even (countIncEdges g v)) ∧
        connectedPairs g.numNodes g.edges = true)) ∧
    (∀ g : Digraph, eulerianDi g = true ↔
      ((∀ v, v < g.numNodes → countInArcs g v = countOutArcs g v) ∧
        connectedPairs g.numNodes g.arcs = true)) := by
  constructor
  · intro g
    rw [eulerian, Bool.and_eq_true, List.all_eq_true]
    constructor
    · rintro ⟨h1, h2⟩
      refine ⟨fun v hv => ?_, h2⟩
      have h3 := h1 v (List.mem_range.mpr hv)
      rw [Nat.even_iff]
      simpa using h3
    · rintro ⟨h1, h2⟩
      refine ⟨fun v hv => ?_, h2⟩
      have h3 := h1 v (List.mem_range.mp hv)
      rw [Nat.even_iff] at h3
      simpa using h3
  · intro g
    rw [eulerianDi, Bool.and_eq_true, List.all_eq_true]
    constructor
    · rintro ⟨h1, h2⟩
      exact ⟨fun v hv => by simpa using h1 v (List.mem_range.mpr hv), h2⟩
    · rintro ⟨h1, h2⟩
      exact ⟨fun v hv => by simpa using h1 v (List.mem_range.mp hv), h2⟩

/-- C5.  For every digraph with an empty arc list and every undirected
graph with an empty edge list, both builders produce the empty sequence,
regardless of the start argument. -/
theorem zero_arc_tours_empty (g : Digraph) (ug : UGraph) (s1 s2 : Option Nat)
    (hg : g.arcs = []) (hug : ug.edges = []) :
    diTour g s1 = [] ∧ uTour ug s2 = [] := by
  constructor
  · have hempty : ∀ v, (initNedge g).getD v [] = [] := by
      intro v
      by_cases hv : v < g.numNodes
      · rw [initNedge_getD g hv]
        simp [outArcs, hg]
      · exact initNedge_getD_ge g (Nat.le_of_not_lt hv)
    have heuler : (diInit g s1).euler = [] := by
      rcases s1 with _ | s
      · cases hf : firstOut g with
        | none => rw [diInit_none_dead g hf]
        | some s =>
          rw [diInit_none_found g s hf]
          show (diWalkF g (sumLens (initNedge g)) (initNedge g) s).1 = []
          rw [diWalkF_stuck g _ _ s (hempty s)]
      · rw [diInit_some]
        show (diWalkF g (sumLens (initNedge g)) (initNedge g) s).1 = []
        rw [diWalkF_stuck g _ _ s (hempty s)]
    exact diRunF_nil g _ _ heuler
  · have hempty : ∀ v, (uInitNedge ug).getD v [] = [] := by
      intro v
      by_cases hv : v < ug.numNodes
      · rw [uInitNedge_getD ug hv]
        simp [uOutArcs, hug]
      · exact uInitNedge_getD_ge ug (Nat.le_of_not_lt hv)
    have heuler : (uInit ug s2).euler = [] := by
      rcases s2 with _ | s
      · cases hf : uFirstOut ug with
        | none => rw [uInit_none_dead ug hf]
        | some s =>
          rw [uInit_none_found ug s hf]
          show (uWalkCF ug (sumLens (uInitNedge ug)) (uInitNedge ug) (uInitVis ug) s).1 = []
          rw [uWalkCF_stuck ug _ _ _ s (hempty s)]
      · rw [uInit_some]
        show (uWalkCF ug (sumLens (uInitNedge ug)) (uInitNedge ug) (uInitVis ug) s).1 = []
        rw [uWalkCF_stuck ug _ _ _ s (hempty s)]
    exact uRunF_nil ug _ _ heuler

/-- Witness for C5: a three-node digraph and a two-node graph with no
arcs/edges, one with an explicit start node and one without. -/
theorem zero_arc_tours_empty_witness :
    diTour { numNodes := 3, arcs := [] } (some 1) = [] ∧
    uTour { numNodes := 2, edges := [] } none = [] :=
  zero_arc_tours_empty { numNodes := 3, arcs := [] } { numNodes := 2, edges := [] }
    (some 1) none rfl rfl

/-- C6.  The Eulerian predicate returns true for the zero-node graph and
for the one-node graph with no arcs/edges, in both the undirected and the
directed overload. -/
theorem eulerian_trivial_graphs :
    eulerian { numNodes := 0, edges := [] } = true ∧
    eulerian { numNodes := 1, edges := [] } = true ∧
    eulerianDi { numNodes := 0, arcs := [] } = true ∧
    eulerianDi { numNodes := 1, arcs := [] } = true := by decide

/-- C7 counterexample: in the figure-eight digraph started at the shared
node `0`, the produced sequence is the first triangle's arcs `[0, 1, 2]`
followed wholly by the second triangle's arcs `[3, 4, 5]` — the second
circuit sits at the tail as one block (the constructor's initial walk
already exhausts all arcs), so the two triangles are not interleaved and
nothing is spliced into the interior of the trail, contrary to the
claim. -/
theorem figEight_blocks_cex :
    eulerianDi figEight = true ∧
    diTour figEight (some 0) = [0, 1, 2] ++ [3, 4, 5] := by decide

/-- C7 amended.  The figure-eight digraph is Eulerian and the builder
started at the shared node produces a sequence of length 6 containing
every arc exactly once and closed; however, that sequence consists of the
two triangles' circuits as consecutive blocks (the initial walk covers
everything, nothing is spliced).  The interleaving produced by the
step-advance's interior splice shows when the tour starts at a non-shared
node instead: from node `1` the second triangle `[3, 4, 5]` is spliced
between the first triangle's arcs `1, 2` and its final arc `0`. -/
theorem figEight_amended :
    eulerianDi figEight = true ∧
    diTour figEight (some 0) = [0, 1, 2, 3, 4, 5] ∧
    (diTour figEight (some 0)).length = 6 ∧
    figEight.target 5 = figEight.source 0 ∧
    diTour figEight (some 1) = [1, 2, 3, 4, 5, 0] := by decide

/-- C8.  For any builder state with a nonempty trail, the postfix increment
returns exactly the arc the conversion yielded before the advance — the
front of the trail — and the advance removes that front and leaves the
spliced walk followed by the remaining trail; likewise for the undirected
builder. -/
theorem postfix_inc_returns_front (g : Digraph) (ug : UGraph) (st : DiState)
    (ust : UState) (e : Nat) (rest : List Nat) (ue : UArc) (urest : List UArc)
    (hd : st.euler = e :: rest) (hu : ust.euler = ue :: urest) :
    (diPostInc g st).1 = diArc st ∧ diArc st = some e ∧
    (diPostInc g st).2 = diStep g st ∧
    (diStep g st).euler = (diWalk g st.nedge (g.target e)).1 ++ rest ∧
    (uPostInc ug ust).1 = uArc ust ∧ uArc ust = some ue ∧
    (uPostInc ug ust).2 = uStep ug ust ∧
    (uStep ug ust).euler = (uWalkS ug ust.nedge ust.visited (ug.target ue)).1 ++ urest := by
  refine ⟨rfl, diArc_cons st e rest hd, rfl, ?_, rfl, uArc_cons ust ue urest hu, rfl, ?_⟩
  · rw [diStep_cons g st e rest hd]
  · rw [uStep_cons ug ust ue urest hu]

/-- Witness for C8 on a one-node digraph with a loop arc and a one-node
graph with a loop edge, each with a single-element trail. -/
theorem postfix_inc_returns_front_witness :
    (diPostInc { numNodes := 1, arcs := [(0, 0)] } { nedge := [[]], euler := [0] }).1 =
      diArc { nedge := [[]], euler := [0] } ∧
    diArc { nedge := [[]], euler := [0] } = some 0 ∧
    (diPostInc { numNodes := 1, arcs := [(0, 0)] } { nedge := [[]], euler := [0] }).2 =
      diStep { numNodes := 1, arcs := [(0, 0)] } { nedge := [[]], euler := [0] } ∧
    (diStep { numNodes := 1, arcs := [(0, 0)] } { nedge := [[]], euler := [0] }).euler =
      (diWalk { numNodes := 1, arcs := [(0, 0)] } [[]]
        (Digraph.target { numNodes := 1, arcs := [(0, 0)] } 0)).1 ++ [] ∧
    (uPostInc { numNodes := 1, edges := [(0, 0)] }
      { nedge := [[]], visited := [false], euler := [(0, true)] }).1 =
      uArc { nedge := [[]], visited := [false], euler := [(0, true)] } ∧
    uArc { nedge := [[]], visited := [false], euler := [(0, true)] } = some (0, true) ∧
    (uPostInc { numNodes := 1, edges := [(0, 0)] }
      { nedge := [[]], visited := [false], euler := [(0, true)] }).2 =
      uStep { numNodes := 1, edges := [(0, 0)] }
        { nedge := [[]], visited := [false], euler := [(0, true)] } ∧
    (uStep { numNodes := 1, edges := [(0, 0)] }
      { nedge := [[]], visited := [false], euler := [(0, true)] }).euler =
      (uWalkS { numNodes := 1, edges := [(0, 0)] } [[]] [false]
        (UGraph.target { numNodes := 1, edges := [(0, 0)] } (0, true))).1 ++ [] :=
  postfix_inc_returns_front { numNodes := 1, arcs := [(0, 0)] }
    { numNodes := 1, edges := [(0, 0)] } { nedge := [[]], euler := [0] }
    { nedge := [[]], visited := [false], euler := [(0, true)] } 0 [] (0, true) [] rfl rfl

/-- C9.  The Arc conversion (and, for the undirected builder, the Edge
conversion) is a pure read: modelled as a state transformer it returns the
state unchanged, so evaluating it any number of times yields the same
value and leaves trail, cursors and visited set untouched. -/
theorem conversion_read_pure (st : DiState) (ust : UState) :
    (diArcRead st).2 = st ∧ (diArcRead ((diArcRead st).2)).1 = (diArcRead st).1 ∧
    (uArcRead ust).2 = ust ∧ (uArcRead ((uArcRead ust).2)).1 = (uArcRead ust).1 ∧
    (uEdgeRead ust).2 = ust ∧ (uEdgeRead ((uEdgeRead ust).2)).1 = (uEdgeRead ust).1 :=
  ⟨rfl, rfl, rfl, rfl, rfl, rfl⟩

/-- C10.  The advance operation has the implicit precondition that the
trail is nonempty: whenever the iterator compares unequal to the sentinel
("has more"), the guarded advance takes its success branch and agrees with
the total model, while on an exhausted iterator the guarded advance has no
result (`none`) — the C++ `operator++` would pop the front of an empty
`std::list`. -/
theorem advance_requires_nonempty (g : Digraph) (ug : UGraph) (st : DiState)
    (ust : UState) (hd : diHasMore st = true) (hu : uHasMore ust = true) :
    diStepChecked g st = some (diStep g st) ∧
    uStepChecked ug ust = some (uStep ug ust) ∧
    diStepChecked g { nedge := st.nedge, euler := [] } = none ∧
    uStepChecked ug { nedge := ust.nedge, visited := ust.visited, euler := [] } = none := by
  refine ⟨?_, ?_, rfl, rfl⟩
  · cases hcase : st.euler with
    | nil => rw [diHasMore, hcase] at hd; simp at hd
    | cons e r =>
      unfold diStepChecked
      rw [hcase]
  · cases hcase : ust.euler with
    | nil => rw [uHasMore, hcase] at hu; simp at hu
    | cons e r =>
      unfold uStepChecked
      rw [hcase]

/-- Witness for C10 on the same concrete one-node states as the C8
witness. -/
theorem advance_requires_nonempty_witness :
    diStepChecked { numNodes := 1, arcs := [(0, 0)] } { nedge := [[]], euler := [0] } =
      some (diStep { numNodes := 1, arcs := [(0, 0)] } { nedge := [[]], euler := [0] }) ∧
    uStepChecked { numNodes := 1, edges := [(0, 0)] }
      { nedge := [[]], visited := [false], euler := [(0, true)] } =
      some (uStep { numNodes := 1, edges := [(0, 0)] }
        { nedge := [[]], visited := [false], euler := [(0, true)] }) ∧
    diStepChecked { numNodes := 1, arcs := [(0, 0)] } { nedge := [[]], euler := [] } =
      none ∧
    uStepChecked { numNodes := 1, edges := [(0, 0)] }
      { nedge := [[]], visited := [false], euler := [] } = none :=
  advance_requires_nonempty { numNodes := 1, arcs := [(0, 0)] }
    { numNodes := 1, edges := [(0, 0)] } { nedge := [[]], euler := [0] }
    { nedge := [[]], visited := [false], euler := [(0, true)] } rfl rfl

/-- Witness for C1: the figure-eight digraph is well-formed and Eulerian,
and the theorem applies to it with the default start argument. -/
theorem diEulerIt_tour_complete_closed_witness :
    figEight.wf ∧ eulerianDi figEight = true ∧
    (diTour figEight none).Perm (List.range figEight.arcs.length) ∧
    (diTour figEight none ≠ [] →
      figEight.target ((diTour figEight none).getLastD 0) =
        figEight.source ((diTour figEight none).headD 0)) := by
  have h := diEulerIt_tour_complete_closed figEight none (by decide)
    (fun s h => Option.noConfusion h) (by decide)
  exact ⟨by decide, by decide, h.1, h.2⟩

end LemonEuler

